import Mathlib

/-!
Verification of the JPFinder search/highlight core against its specification.

Text is modelled as `List Char` (one element per Unicode code point, matching
Python's string indexing).  The external morphological analyzer (Sudachi) is
modelled by its output: a list of `MToken` values carrying surface, reading and
begin/end offsets, exactly the fields the source consumes.  SQLite is modelled
by explicit list-valued state with the insert-or-ignore / error semantics the
source relies on.
-/

namespace JPFinder

/-- A piece of text: the list of its Unicode code points. -/
abbrev Text := List Char

/-! ## Text normalizer (build_index.py lines 14-23, indexer_gui.py lines 35-42) -/

/-- Whitespace as trimmed by Python str.strip (restricted to the ASCII
whitespace code points, which are the only whitespace this development
evaluates the normalizer on). -/
def pyWs (c : Char) : Bool := c.isWhitespace

/-- The bidirectional / invisible control characters deleted by BIDI_CTRL_RE
(build_index.py line 18): U+200E, U+200F, U+202A-U+202E, U+2066-U+2069. -/
def isBidiCtrl (c : Char) : Bool :=
  c.toNat = 0x200e || c.toNat = 0x200f ||
  (0x202a ≤ c.toNat && c.toNat ≤ 0x202e) ||
  (0x2066 ≤ c.toNat && c.toNat ≤ 0x2069)

/-- Left half of Python str.strip(): drop leading whitespace. -/
def ltrim (l : Text) : Text := l.dropWhile pyWs

/-- Right half of Python str.strip(): drop trailing whitespace. -/
def rtrim (l : Text) : Text := (l.reverse.dropWhile pyWs).reverse

/-- Python str.strip(): trim whitespace from both ends. -/
def pyStrip (l : Text) : Text := rtrim (ltrim l)

/-- build_index.py nfkc: unicodedata.normalize("NFKC", text).strip().
The NFKC pass itself is modelled as the identity map: every code point this
development applies the normalizer to (ASCII characters, standard hiragana and
katakana, CJK ideographs, and the bidi controls) is NFKC-stable — it has no
compatibility decomposition, canonical combining class 0, and composes with
nothing — so on such strings real NFKC is the identity, and only the trailing
str.strip() remains. -/
def nfkc (l : Text) : Text := pyStrip l

/-- build_index.py clean_controls: delete the bidi control characters. -/
def clean_controls (l : Text) : Text := l.filter (fun c => !(isBidiCtrl c))

/-- build_index.py jp_clean: clean_controls(nfkc(text)). -/
def jp_clean (l : Text) : Text := clean_controls (nfkc l)

/-! ## Tokenizer adapter (Sudachi output model) -/

/-- One token of the external morphological analyzer's output stream.
surface is the token as written; reading is the raw reading_form() result
([] when the analyzer defines none, possibly the literal "*"); tb/te are the
begin()/end() code-point offsets into the tokenized string. -/
structure MToken where
  surface : Text
  reading : Text
  tb : Nat
  te : Nat
deriving DecidableEq

/-- app_ui.py lines 72-76 / search.py lines 16-20 tokenize_surface: stripped
surfaces with blanks dropped. -/
def tokenize_surface (ts : List MToken) : List Text :=
  (ts.map (fun t => pyStrip t.surface)).filter (fun w => w ≠ [])

/-- Query-path reading of one token (body of app_ui.py lines 78-82 /
search.py lines 22-26 tokenize_reading): (m.reading_form() or
m.surface()).strip() — an empty reading falls back to the surface, while a
"*" reading is kept as written. -/
def queryReading (t : MToken) : Text :=
  pyStrip (if t.reading = [] then t.surface else t.reading)

/-- app_ui.py / search.py tokenize_reading: query-path readings with blanks
dropped. -/
def tokenize_reading (ts : List MToken) : List Text :=
  (ts.map queryReading).filter (fun w => w ≠ [])

/-- Index-path reading of one token (body of build_index.py lines 36-43
tokenize_reading_kana): a reading that is empty or "*" falls back to the
surface, then strip. -/
def kanaReading (t : MToken) : Text :=
  pyStrip (if t.reading = [] ∨ t.reading = ['*'] then t.surface else t.reading)

/-- build_index.py tokenize_reading_kana: index-path readings with blanks
dropped. -/
def tokenize_reading_kana (ts : List MToken) : List Text :=
  (ts.map kanaReading).filter (fun w => w ≠ [])

/-! ## Query compiler (app_ui.py lines 84-94, search.py lines 28-43) -/

/-- Quote stripping applied to each token before it enters the match
expression: t.replace('"', '').replace("'", ""). -/
def strip_quotes (t : Text) : Text := t.filter (fun c => !(c == '"' || c == '\''))

/-- Python sep.join(xs). -/
def sepJoin (sep : Text) : List Text → Text
  | [] => []
  | [x] => x
  | x :: y :: xs => x ++ sep ++ sepJoin sep (y :: xs)

/-- build_match_query (app_ui.py lines 84-94 = search.py lines 28-43): strip
quotes from the surface and reading token lists, AND-join each field's tokens
into a per-field clause, parenthesize and OR-join the non-empty clauses; None
when there is no token at all. -/
def build_match_query (qts : List MToken) : Option Text :=
  let s_tokens := (tokenize_surface qts).map strip_quotes
  let r_tokens := (tokenize_reading qts).map strip_quotes
  let parts :=
    (if s_tokens ≠ [] then
      [sepJoin " AND ".toList (s_tokens.map (fun t => "text_tok:".toList ++ t))]
     else []) ++
    (if r_tokens ≠ [] then
      [sepJoin " AND ".toList (r_tokens.map (fun t => "reading_tok:".toList ++ t))]
     else [])
  if parts = [] then none
  else some (sepJoin " OR ".toList
    ((parts.filter (fun p => p ≠ [])).map (fun p => ['('] ++ p ++ [')'])))

/-- Modelled from the spec (§4.4 step 3), for comparison with
build_match_query: within each field the tokens are combined by AND; a field
whose token list is empty contributes no clause; the field clauses are
combined by OR; no token at all means no expression. -/
def specMatchExpr (s_tokens r_tokens : List Text) : Option Text :=
  let sClause := ['('] ++ sepJoin " AND ".toList
      (s_tokens.map (fun t => "text_tok:".toList ++ t)) ++ [')']
  let rClause := ['('] ++ sepJoin " AND ".toList
      (r_tokens.map (fun t => "reading_tok:".toList ++ t)) ++ [')']
  match s_tokens, r_tokens with
  | [], [] => none
  | _ :: _, [] => some sClause
  | [], _ :: _ => some rClause
  | _ :: _, _ :: _ => some (sClause ++ " OR ".toList ++ rClause)

/-! ## Storage rows and the retriever (app_ui.py lines 131-172, search.py
lines 45-86) -/

/-- One row of the SELECT issued by the retriever: (title, media_type,
start_ms, end_ms, text, source_path). -/
structure Row where
  title : Text
  media_type : Text
  start_ms : Int
  end_ms : Int
  text : Text
  source_path : Text
deriving DecidableEq

/-- The sqlite3.OperationalError conditions the source distinguishes by
message text. -/
inductive SqlError where
  | noSuchTableFts
  | noSuchFunctionBm25
  | other
deriving DecidableEq

/-- The searchable store as seen through the retriever's two SELECT
statements: whether the fts table exists, whether the bm25 ranking function
exists, the rows matching the compiled expression in bm25 order, and the
same matching rows in unordered (plain LIMIT) retrieval order.  The row
lists abstract the storage engine's response to the MATCH expression. -/
structure Store where
  ftsBuilt : Bool
  hasBm25 : Bool
  ranked : List Row
  raw : List Row
deriving DecidableEq

/-- The ranked query: SELECT ... WHERE fts MATCH ? ORDER BY bm25(fts)
LIMIT n. -/
def fetchRanked (st : Store) (n : Nat) : Except SqlError (List Row) :=
  if !st.ftsBuilt then .error .noSuchTableFts
  else if !st.hasBm25 then .error .noSuchFunctionBm25
  else .ok (st.ranked.take n)

/-- The unordered fallback query: SELECT ... WHERE fts MATCH ? LIMIT n. -/
def fetchRaw (st : Store) (n : Nat) : Except SqlError (List Row) :=
  if !st.ftsBuilt then .error .noSuchTableFts
  else .ok (st.raw.take n)

/-- Python "p in t": literal substring containment. -/
def containsSub (t p : Text) : Bool := t.tails.any (fun s => p.isPrefixOf s)

/-- app_ui.py lines 165-167 has_all: the row text contains every phrase. -/
def has_all (phrases : List Text) (txt : Text) : Bool :=
  phrases.all (fun p => containsSub txt p)

/-- app_ui.py lines 164-171: the phrase post-filter and truncation to topn. -/
def postFilter (phrases : List Text) (topn : Nat) (rows : List Row) : List Row :=
  if phrases ≠ [] then (rows.filter (fun r => has_all phrases r.text)).take topn
  else rows.take topn

/-- app_ui.py query_hits (lines 131-172): compile the match expression (None
means no query is issued), fetch 5*topn ranked candidates, return [] when
the fts table is absent, retry unordered when bm25 is unavailable, then
apply the phrase post-filter and the topn cap. -/
def query_hits (st : Store) (qts : List MToken) (phrases : List Text)
    (topn : Nat) : Except SqlError (List Row) :=
  match build_match_query qts with
  | none => .ok []
  | some _ =>
    match fetchRanked st (topn * 5) with
    | .error .noSuchTableFts => .ok []
    | .error .noSuchFunctionBm25 =>
      match fetchRaw st (topn * 5) with
      | .error e => .error e
      | .ok rows => .ok (postFilter phrases topn rows)
    | .error e => .error e
    | .ok rows => .ok (postFilter phrases topn rows)

/-- search.py search (lines 45-86): the CLI path; fetch topn ranked rows and
retry unordered only when bm25 is missing — a missing fts table is not
handled there and the error propagates to the caller. -/
def search (st : Store) (qts : List MToken) (topn : Nat) :
    Except SqlError (List Row) :=
  match build_match_query qts with
  | none => .ok []
  | some _ =>
    match fetchRanked st topn with
    | .error .noSuchFunctionBm25 => fetchRaw st topn
    | .error e => .error e
    | .ok rows => .ok rows

/-! ## Ingest into SQLite (build_index.py lines 45-98) -/

/-- One input record of the corpus (the JSONL row of §6). -/
structure EntryRow where
  id : Text
  media_type : Text
  title : Text
  episode_or_track : Text
  media_path : Text
  source_path : Text
  start_ms : Int
  end_ms : Int
  text : Text
  context_prev : Text
  context_next : Text
deriving DecidableEq

/-- The relevant database state: the entries table (id UNIQUE; a row's list
position is its sqlite rowid) and the fts5 external-content index rows
(rowid, text_tok, reading_tok).  An fts5 external-content table performs no
uniqueness check on rowid: an INSERT always appends an index row. -/
structure DBState where
  entries : List EntryRow
  fts : List (Nat × Text × Text)
deriving DecidableEq

/-- build_index.py insert_entry (lines 77-98), with the analyzer passed in:
INSERT OR IGNORE into entries, SELECT the rowid for the id, recompute the
two space-joined token fields from the cleaned text, INSERT the fts row. -/
def insert_entry (analyze : Text → List MToken) (db : DBState)
    (row : EntryRow) : DBState :=
  let entries :=
    if db.entries.any (fun e => e.id == row.id) then db.entries
    else db.entries ++ [row]
  let rid := entries.findIdx (fun e => e.id == row.id)
  let text := jp_clean row.text
  let text_tok := sepJoin [' '] (tokenize_surface (analyze text))
  let reading_tok := sepJoin [' '] (tokenize_reading_kana (analyze text))
  ⟨entries, db.fts ++ [(rid, text_tok, reading_tok)]⟩

/-- A minimal concrete analyzer for closed evaluations: the whole string as
one token with no reading defined. -/
def oneTokenAnalyzer (l : Text) : List MToken := [⟨l, [], 0, l.length⟩]

/-- A sample corpus record for the re-ingest experiment. -/
def sampleRow : EntryRow :=
  ⟨['a'], "song".toList, [], [], [], [], 0, 10, ['あ'], [], []⟩

/-! ## Snippet cache (app_ui.py lines 272-290) -/

/-- The cache key f-string "media|start|end|pad" with the integers rendered
in decimal as Python renders them. -/
def snippetKey (media : Text) (start_ms end_ms pad_ms : Int) : Text :=
  media ++ ['|'] ++ (toString start_ms).toList ++ ['|'] ++
    (toString end_ms).toList ++ ['|'] ++ (toString pad_ms).toList

/-- The cache filename derived from the key (md5 hex digest of the key plus
".mp3").  The digest is modelled as the key itself: the development relies
only on the digest being a pure function of the key, never on its internal
structure. -/
def snippetName (media : Text) (start_ms end_ms pad_ms : Int) : Text :=
  snippetKey media start_ms end_ms pad_ms ++ ".mp3".toList

/-- The cache directory: filename to file size in bytes. -/
structure CacheFS where
  files : List (Text × Nat)
deriving DecidableEq

/-- File lookup: the size of the file at name, none when absent. -/
def CacheFS.lookup (fs : CacheFS) (name : Text) : Option Nat :=
  (fs.files.find? (fun f => f.1 == name)).map (fun f => f.2)

/-- Writing a file (ffmpeg -y overwrites). -/
def CacheFS.write (fs : CacheFS) (name : Text) (sz : Nat) : CacheFS :=
  ⟨fs.files.filter (fun f => !(f.1 == name)) ++ [(name, sz)]⟩

/-- app_ui.py make_snippet (lines 272-290): on a cache hit (the file exists
with size above the 1024-byte sanity threshold) return the cached path with
no transcoder call; otherwise invoke the transcoder on the padded window
ss = max(0, start-pad), dur = max(1, (end-start)+2*pad) and return the
output on success.  The external transcoder is a parameter mapping
(ss, dur, output name) to the size of the file it produces, none meaning
process failure with no output.  The result records the new filesystem
state, the returned path, and whether the transcoder was invoked. -/
def make_snippet (transcode : Int → Int → Text → Option Nat) (fs : CacheFS)
    (media : Text) (start_ms end_ms pad_ms : Int) :
    CacheFS × Option Text × Bool :=
  let out := snippetName media start_ms end_ms pad_ms
  let hit : Bool :=
    match fs.lookup out with
    | some sz => decide (sz > 1024)
    | none => false
  if hit then (fs, some out, false)
  else
    let ss := max 0 (start_ms - pad_ms)
    let dur := max 1 ((end_ms - start_ms) + 2 * pad_ms)
    match transcode ss dur out with
    | some sz2 => (fs.write out sz2, some out, true)
    | none => (fs, none, true)

/-! ## LRC lyric parsing (parse_media.py lines 29-68) -/

/-- Digit characters to their decimal value (int(...) on a digit string). -/
def digitsVal (ds : List Char) : Nat :=
  ds.foldl (fun a c => a * 10 + (c.toNat - 48)) 0

/-- The minute group of the tag regex, \d{1,2} followed by ':' — greedy two
digits first, backtracking to one.  Returns the value and the remainder
after the colon. -/
def matchMinutes (l : List Char) : Option (Nat × List Char) :=
  match l with
  | d1 :: d2 :: ':' :: rest =>
    if d1.isDigit && d2.isDigit then some (digitsVal [d1, d2], rest)
    else if d1.isDigit && d2 == ':' then some (digitsVal [d1], ':' :: rest)
    else none
  | d1 :: ':' :: rest =>
    if d1.isDigit then some (digitsVal [d1], rest) else none
  | _ => none

/-- The second group of the tag regex: exactly two digits. -/
def matchSeconds (l : List Char) : Option (Nat × List Char) :=
  match l with
  | s1 :: s2 :: rest =>
    if s1.isDigit && s2.isDigit then some (digitsVal [s1, s2], rest) else none
  | _ => none

/-- Three fraction digits followed by the closing bracket. -/
def frac3 (l : List Char) : Option (Option (List Char) × List Char) :=
  match l with
  | d1 :: d2 :: d3 :: ']' :: rest =>
    if d1.isDigit && d2.isDigit && d3.isDigit then some (some [d1, d2, d3], rest)
    else none
  | _ => none

/-- Two fraction digits followed by the closing bracket. -/
def frac2 (l : List Char) : Option (Option (List Char) × List Char) :=
  match l with
  | d1 :: d2 :: ']' :: rest =>
    if d1.isDigit && d2.isDigit then some (some [d1, d2], rest) else none
  | _ => none

/-- One fraction digit followed by the closing bracket. -/
def frac1 (l : List Char) : Option (Option (List Char) × List Char) :=
  match l with
  | d1 :: ']' :: rest => if d1.isDigit then some (some [d1], rest) else none
  | _ => none

/-- The optional fraction group and the closing bracket of the tag regex,
(?:[.:](\d{1,3}))?\]: either an immediate bracket (no fraction), or '.' or
':' then one to three digits — greedy, backtracking before the required
bracket. -/
def matchFracClose (l : List Char) : Option (Option (List Char) × List Char) :=
  match l with
  | ']' :: rest => some (none, rest)
  | c :: rest1 =>
    if c == '.' || c == ':' then
      match frac3 rest1 with
      | some r => some r
      | none =>
        match frac2 rest1 with
        | some r => some r
        | none => frac1 rest1
    else none
  | [] => none

/-- Match the full timestamp tag r"\[(\d{1,2}):(\d{2})(?:[.:](\d{1,3}))?\]"
at the head of cs; returns minutes, seconds, the optional fraction digits,
and the remainder after the tag. -/
def matchTagAt (cs : List Char) : Option (Nat × Nat × Option (List Char) × List Char) :=
  match cs with
  | '[' :: rest =>
    match matchMinutes rest with
    | none => none
    | some (mm, rest1) =>
      match matchSeconds rest1 with
      | none => none
      | some (sec, rest2) =>
        match matchFracClose rest2 with
        | none => none
        | some (frac, rest3) => some (mm, sec, frac, rest3)
  | _ => none

/-- One left-to-right scan of a line, fuelled by the line length (every
successful tag match consumes at least six characters, so fuel = length + 1
never runs out): the list of timestamp tags exactly as re.finditer finds
them (non-overlapping, each search resuming after the previous match), and
the line with every matched tag deleted (time_tag.sub("", line)). -/
def scanTagsF : Nat → List Char → List (Nat × Nat × Option (List Char)) × List Char
  | 0, l => ([], l)
  | _ + 1, [] => ([], [])
  | fuel + 1, c :: rest =>
    match matchTagAt (c :: rest) with
    | some (mm, sec, frac, rest') =>
      let r := scanTagsF fuel rest'
      ((mm, sec, frac) :: r.1, r.2)
    | none =>
      let r := scanTagsF fuel rest
      (r.1, c :: r.2)

/-- Milliseconds of one tag's fraction: int((frac + "00")[:3]), 0 when the
fraction is absent (parse_media.py lines 44-49). -/
def fracMs (frac : Option (List Char)) : Nat :=
  match frac with
  | none => 0
  | some ds => digitsVal ((ds ++ ['0', '0']).take 3)

/-- The file name after the last path separator. -/
def afterLastSep (p : Text) : Text :=
  p.foldl (fun acc c => if c = '/' ∨ c = '\\' then [] else acc ++ [c]) []

/-- pathlib Path.stem: the final path component without its last extension
(a dot in first position does not count as an extension). -/
def pathStem (p : Text) : Text :=
  let name := afterLastSep p
  match name.reverse.findIdx? (fun c => c == '.') with
  | none => name
  | some i =>
    let dotPos := name.length - 1 - i
    if dotPos = 0 then name else name.take dotPos

/-- The entries produced from one line of an LRC file (the body of the
per-line loop of parse_media.py parse_lrc): no tags means no entries; the
text is the line with all tags removed, stripped and NFKC-cleaned, and a
blank text drops the line; otherwise one entry per tag, all sharing the
text, with start_ms from the tag and end_ms = start_ms + 3000. -/
def lrcLineEntries (path : Text) (line : Text) : List EntryRow :=
  let scanned := scanTagsF (line.length + 1) line
  if scanned.1 = [] then []
  else
    let text := nfkc (pyStrip scanned.2)
    if text = [] then []
    else scanned.1.map (fun tg =>
      let start_ms : Int := ((tg.1 * 60 + tg.2.1) * 1000 + fracMs tg.2.2 : Nat)
      { id := path ++ ['|'] ++ (toString start_ms).toList
        media_type := "song".toList
        title := pathStem path
        episode_or_track := []
        media_path := []
        source_path := path
        start_ms := start_ms
        end_ms := start_ms + 3000
        text := text
        context_prev := []
        context_next := [] })

/-- parse_media.py parse_lrc (lines 29-68) over the file's lines: collect the
per-line entries, sort them stably by start_ms, then fill each entry's
context_prev/context_next with the neighbouring entry's text. -/
def parse_lrc (path : Text) (lines : List Text) : List EntryRow :=
  let entries := lines.flatMap (lrcLineEntries path)
  let sorted := List.insertionSort (fun a b => a.start_ms ≤ b.start_ms) entries
  sorted.mapIdx (fun i e =>
    { e with
      context_prev := if i = 0 then [] else ((sorted[i-1]?).map (fun x => x.text)).getD []
      context_next := ((sorted[i+1]?).map (fun x => x.text)).getD [] })

/-! ## Highlighter (app_ui.py lines 296-371) -/

/-- A half-open interval [fst, snd) of code-point positions. -/
abbrev Iv := Nat × Nat

/-- Python text.find(p, start): the least index i with start ≤ i at which p
occurs as text[i : i + len p], none when there is no occurrence. -/
def findFrom (text p : Text) (start : Nat) : Option Nat :=
  if h : start + p.length ≤ text.length then
    if p.isPrefixOf (text.drop start) then some start
    else findFrom text p (start + 1)
  else none
termination_by text.length + 1 - start
decreasing_by omega

/-- The while-loop of find_phrase_ranges for one phrase: all occurrences left
to right, each search resuming past the previous match end so overlapping
repeats are not double-counted.  Fuelled by the caller with text.length + 1:
each iteration advances the search position by len p ≥ 1, so the fuel never
runs out for a non-empty phrase. -/
def occsFrom (text p : Text) (start : Nat) : Nat → List Iv
  | 0 => []
  | fuel + 1 =>
    match findFrom text p start with
    | none => []
    | some i => (i, i + p.length) :: occsFrom text p (i + p.length) fuel

/-- Lexicographic order on intervals: Python's default tuple sort order. -/
def ivLE (a b : Iv) : Prop := a.1 < b.1 ∨ (a.1 = b.1 ∧ a.2 ≤ b.2)

instance ivLE.instDecidable : DecidableRel ivLE := fun a b =>
  decidable_of_iff (a.1 < b.1 ∨ (a.1 = b.1 ∧ a.2 ≤ b.2)) Iff.rfl

instance ivLE.instIsTotal : IsTotal Iv ivLE :=
  ⟨fun a b => by unfold ivLE; omega⟩

instance ivLE.instIsTrans : IsTrans Iv ivLE :=
  ⟨fun a b c hab hbc => by unfold ivLE at *; omega⟩

/-- The merge loop of find_phrase_ranges (app_ui.py lines 327-332): walk the
sorted ranges, appending a range that starts strictly after the last merged
range's end and otherwise extending the last merged range to the larger
end. -/
def mergeRanges : List Iv → List Iv
  | [] => []
  | [r] => [r]
  | r1 :: r2 :: rest =>
    if r2.1 > r1.2 then r1 :: mergeRanges (r2 :: rest)
    else mergeRanges ((r1.1, max r1.2 r2.2) :: rest)
termination_by l => l.length

/-- app_ui.py find_phrase_ranges (lines 314-333): all occurrences of all
non-empty phrases, sorted lexicographically, with touching or overlapping
ranges merged into maximal ranges. -/
def find_phrase_ranges (text : Text) (phrases : List Text) : List Iv :=
  let ranges := phrases.flatMap (fun p =>
    if p = [] then [] else occsFrom text p 0 (text.length + 1))
  mergeRanges (List.insertionSort ivLE ranges)

/-- The inner loop body of subtract_intervals (app_ui.py lines 301-309): one
segment minus one subtrahend interval — kept whole when disjoint, otherwise
split into the parts left of and right of the subtrahend. -/
def subStep (b : Iv) (xy : Iv) : List Iv :=
  if b.2 ≤ xy.1 ∨ b.1 ≥ xy.2 then [xy]
  else
    (if xy.1 < b.1 then [(xy.1, b.1)] else []) ++
    (if b.2 < xy.2 then [(b.2, xy.2)] else [])

/-- app_ui.py subtract_intervals (lines 296-312): subtract every interval of
bs from a, keeping the non-empty remaining segments in order. -/
def subtract_intervals (a : Iv) (bs : List Iv) : List Iv :=
  (bs.foldl (fun segs b => segs.flatMap (subStep b)) [a]).filter
    (fun xy => decide (xy.1 < xy.2))

/-- The highlight span labels ("phrase" / "token" in the source). -/
inductive HLabel where
  | phrase
  | token
deriving DecidableEq

/-- A labeled span (s, e, label) of build_highlight_html. -/
structure LSpan where
  s : Nat
  e : Nat
  lab : HLabel
deriving DecidableEq

/-- The sort key of app_ui.py line 349: (start, label ≠ "phrase"), so that at
equal starts phrase spans sort before token spans. -/
def labRank (lab : HLabel) : Nat :=
  match lab with
  | .phrase => 0
  | .token => 1

/-- Order on labeled spans induced by the (start, phrase-before-token) key. -/
def spanLE (a b : LSpan) : Prop :=
  a.s < b.s ∨ (a.s = b.s ∧ labRank a.lab ≤ labRank b.lab)

instance spanLE.instDecidable : DecidableRel spanLE := fun a b =>
  decidable_of_iff (a.s < b.s ∨ (a.s = b.s ∧ labRank a.lab ≤ labRank b.lab)) Iff.rfl

instance spanLE.instIsTotal : IsTotal LSpan spanLE :=
  ⟨fun a b => by unfold spanLE; omega⟩

instance spanLE.instIsTrans : IsTrans LSpan spanLE :=
  ⟨fun a b c hab hbc => by unfold spanLE at *; omega⟩

/-- Whether a token matches the query sets (app_ui.py line 344): its surface
is in the surface set, or its reading — surface when the analyzer defines no
reading — is in the reading set. -/
def tokenMatches (surfQ readQ : List Text) (t : MToken) : Bool :=
  surfQ.contains t.surface ||
    readQ.contains (if t.reading = [] then t.surface else t.reading)

/-- One step of the overlap-resolution walk (app_ui.py lines 351-358), with
the emitted list kept in reverse order (head = most recently emitted): a
token span overlapping an already-emitted phrase span is dropped; an
adjacent or overlapping span of the same label as the last emitted span is
coalesced into it; anything else is appended. -/
def walkStep (out : List LSpan) (x : LSpan) : List LSpan :=
  if x.lab = HLabel.token ∧
      ∃ q ∈ out, q.lab = HLabel.phrase ∧ ¬(x.e ≤ q.s ∨ x.s ≥ q.e) then out
  else
    match out with
    | l :: rest =>
      if l.lab = x.lab ∧ x.s ≤ l.e then ⟨l.s, max l.e x.e, l.lab⟩ :: rest
      else x :: l :: rest
    | [] => [x]

/-- The full overlap-resolution walk over the sorted labeled spans. -/
def resolveSpans (xs : List LSpan) : List LSpan :=
  (xs.foldl walkStep []).reverse

/-- The span computation of app_ui.py build_highlight_html (lines 335-358),
up to but not including HTML rendering: empty text yields no spans; phrase
ranges are computed from the phrases; every matching token's span has the
phrase ranges subtracted from it; the labeled spans are sorted by
(start, phrase-first) and the overlap-resolution walk produces the final
ordered labeled spans. -/
def build_highlight_spans (text : Text) (phrases : List Text)
    (surfQ readQ : List Text) (tokens : List MToken) : List LSpan :=
  if text = [] then []
  else
    let phrase_ranges := find_phrase_ranges text phrases
    let token_ranges := tokens.flatMap (fun t =>
      if tokenMatches surfQ readQ t then
        subtract_intervals (t.tb, t.te) phrase_ranges
      else [])
    let labeled :=
      phrase_ranges.map (fun iv => LSpan.mk iv.1 iv.2 HLabel.phrase) ++
      token_ranges.map (fun iv => LSpan.mk iv.1 iv.2 HLabel.token)
    resolveSpans (List.insertionSort spanLE labeled)

/-- The positions of text at which some non-empty query phrase literally
occurs (the phrase-match positions of the spec's coverage property). -/
def PhrasePos (text : Text) (phrases : List Text) (n : Nat) : Prop :=
  ∃ p ∈ phrases, p ≠ [] ∧
    ∃ i, p.isPrefixOf (text.drop i) = true ∧ i ≤ n ∧ n < i + p.length

/-- The positions of text covered by some query-matching token of the
tokenization (the query-token positions of the spec's coverage property). -/
def TokenPos (surfQ readQ : List Text) (tokens : List MToken) (n : Nat) : Prop :=
  ∃ t ∈ tokens, tokenMatches surfQ readQ t = true ∧ t.tb ≤ n ∧ n < t.te

/-- Every position of a labeled span satisfies the per-label position
predicate P. -/
def SpanIn (P : HLabel → Nat → Prop) (y : LSpan) : Prop :=
  ∀ n, y.s ≤ n → n < y.e → P y.lab n

/-- The per-label position invariant of the highlighter: a phrase span covers
only positions inside some merged phrase range, and a token span covers only
query-token positions lying outside every phrase range. -/
def LabelPos (text : Text) (phrases surfQ readQ : List Text)
    (tokens : List MToken) (lab : HLabel) (n : Nat) : Prop :=
  match lab with
  | .phrase => ∃ iv ∈ find_phrase_ranges text phrases, iv.1 ≤ n ∧ n < iv.2
  | .token => TokenPos surfQ readQ tokens n ∧
      ∀ iv ∈ find_phrase_ranges text phrases, ¬(iv.1 ≤ n ∧ n < iv.2)

end JPFinder

namespace JPFinder

/-! ## Helper lemmas -/

theorem sepJoin_cons (sep x : Text) (xs : List Text) :
    ∃ r, sepJoin sep (x :: xs) = x ++ r := by
  cases xs with
  | nil => exact ⟨[], by simp [sepJoin]⟩
  | cons y ys => exact ⟨sep ++ sepJoin sep (y :: ys), by simp [sepJoin]⟩

theorem sepJoin_field_ne_nil (sep pre : Text) (hpre : pre ≠ []) (x : Text)
    (xs : List Text) :
    sepJoin sep ((x :: xs).map (fun t => pre ++ t)) ≠ [] := by
  obtain ⟨r, hr⟩ := sepJoin_cons sep (pre ++ x) (xs.map (fun t => pre ++ t))
  simp only [List.map_cons] at hr ⊢
  rw [hr]
  simp [hpre]

theorem match_query_eq_spec (qts : List MToken) :
    build_match_query qts =
      specMatchExpr ((tokenize_surface qts).map strip_quotes)
        ((tokenize_reading qts).map strip_quotes) := by
  unfold build_match_query specMatchExpr
  generalize (tokenize_surface qts).map strip_quotes = S
  generalize (tokenize_reading qts).map strip_quotes = R
  cases S with
  | nil =>
    cases R with
    | nil => simp
    | cons r rs =>
      have hne := sepJoin_field_ne_nil " AND ".toList "reading_tok:".toList
        (by decide) r rs
      simp at hne
      simp [List.filter_cons, sepJoin, hne]
  | cons s ss =>
    have hneS := sepJoin_field_ne_nil " AND ".toList "text_tok:".toList
      (by decide) s ss
    simp at hneS
    cases R with
    | nil => simp [List.filter_cons, sepJoin, hneS]
    | cons r rs =>
      have hneR := sepJoin_field_ne_nil " AND ".toList "reading_tok:".toList
        (by decide) r rs
      simp at hneR
      simp [List.filter_cons, sepJoin, hneS, hneR]

/-- C1: whenever tokenization of the query yields at least one non-blank
surface token or one non-blank reading token, the compiled match expression
exists and is exactly the spec's expression: each field's (quote-stripped)
tokens AND-joined into one clause, a field with no tokens contributing no
clause, and the clauses OR-joined; in particular a single surface token with
no reading tokens yields only the surface clause with no OR. -/
theorem claim1_match_query_shape (qts : List MToken)
    (h : tokenize_surface qts ≠ [] ∨ tokenize_reading qts ≠ []) :
    build_match_query qts =
      specMatchExpr ((tokenize_surface qts).map strip_quotes)
        ((tokenize_reading qts).map strip_quotes) ∧
    (build_match_query qts).isSome = true ∧
    (∀ t, (tokenize_surface qts).map strip_quotes = [t] →
      (tokenize_reading qts).map strip_quotes = [] →
      build_match_query qts = some ("(text_tok:".toList ++ t ++ [')'])) := by
  refine ⟨match_query_eq_spec qts, ?_, ?_⟩
  · rw [match_query_eq_spec qts]
    rcases h with h | h
    · have : (tokenize_surface qts).map strip_quotes ≠ [] := by
        simpa using h
      cases hS : (tokenize_surface qts).map strip_quotes with
      | nil => exact absurd hS this
      | cons s ss =>
        cases hR : (tokenize_reading qts).map strip_quotes <;>
          simp [specMatchExpr]
    · have : (tokenize_reading qts).map strip_quotes ≠ [] := by
        simpa using h
      cases hR : (tokenize_reading qts).map strip_quotes with
      | nil => exact absurd hR this
      | cons r rs =>
        cases hS : (tokenize_surface qts).map strip_quotes <;>
          simp [specMatchExpr]
  · intro t hS hR
    rw [match_query_eq_spec qts, hS, hR]
    simp [specMatchExpr, sepJoin]

/-- Witness for C1 at a concrete analyzer output: one token whose surface is
"君" and whose reading is blank, so the reading field is empty and the
expression is the bare surface clause. -/
theorem claim1_match_query_shape_witness :
    (tokenize_surface [⟨['君'], [' '], 0, 1⟩] ≠ [] ∨
      tokenize_reading [⟨['君'], [' '], 0, 1⟩] ≠ []) ∧
    build_match_query [⟨['君'], [' '], 0, 1⟩] =
      some ("(text_tok:".toList ++ ['君'] ++ [')']) := by
  refine ⟨by decide, ?_⟩
  exact (claim1_match_query_shape [⟨['君'], [' '], 0, 1⟩] (by decide)).2.2
    ['君'] (by decide) (by decide)

/-! ## Normalizer lemmas (C5) -/

theorem dropWhile_dropWhile (p : Char → Bool) (l : Text) :
    (l.dropWhile p).dropWhile p = l.dropWhile p := by
  induction l with
  | nil => rfl
  | cons x xs ih =>
    by_cases hx : p x
    · simp [List.dropWhile_cons, hx, ih]
    · simp [List.dropWhile_cons, hx]

theorem rtrim_idem (l : Text) : rtrim (rtrim l) = rtrim l := by
  unfold rtrim
  rw [List.reverse_reverse, dropWhile_dropWhile]

theorem rtrim_prefix (l : Text) : rtrim l <+: l := by
  conv_rhs => rw [← List.reverse_reverse l]
  exact List.reverse_prefix.mpr (List.dropWhile_suffix pyWs)

theorem not_head_of_dropWhile_eq_self (p : Char → Bool) (b : Char) (xs : Text)
    (hx : (b :: xs).dropWhile p = b :: xs) : p b = false := by
  by_cases hb : p b
  · exfalso
    rw [List.dropWhile_cons, if_pos hb] at hx
    have h1 : (List.dropWhile p xs).length ≤ xs.length :=
      (List.dropWhile_sublist (p := p)).length_le
    rw [hx] at h1
    simp at h1
  · simpa using hb

theorem dropWhile_eq_self_of_prefix (p : Char → Bool) (x y : Text)
    (hyx : y <+: x) (hx : x.dropWhile p = x) : y.dropWhile p = y := by
  cases y with
  | nil => rfl
  | cons a ys =>
    cases x with
    | nil => simp at hyx
    | cons b xs =>
      have hab : a = b := by
        obtain ⟨t, ht⟩ := hyx
        rw [List.cons_append] at ht
        injection ht with h1 h2
      have hpb : p b = false := not_head_of_dropWhile_eq_self p b xs hx
      rw [List.dropWhile_cons, if_neg (by simp [hab, hpb])]

theorem pyStrip_idem (l : Text) : pyStrip (pyStrip l) = pyStrip l := by
  have h1 : ltrim (pyStrip l) = pyStrip l := by
    have hpre : pyStrip l <+: ltrim l := rtrim_prefix (ltrim l)
    exact dropWhile_eq_self_of_prefix pyWs (ltrim l) (pyStrip l) hpre
      (dropWhile_dropWhile pyWs l)
  calc pyStrip (pyStrip l) = rtrim (ltrim (pyStrip l)) := rfl
    _ = rtrim (pyStrip l) := by rw [h1]
    _ = rtrim (rtrim (ltrim l)) := rfl
    _ = rtrim (ltrim l) := rtrim_idem (ltrim l)

theorem mem_of_mem_pyStrip {c : Char} {l : Text} (h : c ∈ pyStrip l) : c ∈ l := by
  have h1 : pyStrip l <+: ltrim l := rtrim_prefix (ltrim l)
  have h2 : c ∈ ltrim l := h1.sublist.subset h
  exact (List.dropWhile_sublist (p := pyWs)).subset h2

/-- C5 counterexample: on the string "a ‎" (a letter, a space, then U+200E
LEFT-TO-RIGHT MARK) the normalizer is not idempotent.  str.strip runs before
clean_controls, so the first pass strips nothing (the control character
shields the trailing space) and then deletes the control, leaving a trailing
space that only the second pass removes. -/
theorem claim5_counterexample :
    jp_clean (jp_clean ['a', ' ', Char.ofNat 0x200e]) ≠
      jp_clean ['a', ' ', Char.ofNat 0x200e] ∧
    jp_clean ['a', ' ', Char.ofNat 0x200e] = ['a', ' '] ∧
    jp_clean (jp_clean ['a', ' ', Char.ofNat 0x200e]) = ['a'] := by
  refine ⟨?_, by decide, by decide⟩
  decide

/-- C5 amended: on strings that contain none of the stripped bidi control
characters (the restriction the counterexample forces), jp_clean is
idempotent. -/
theorem claim5_normalizer_idempotent (l : Text)
    (h : ∀ c ∈ l, isBidiCtrl c = false) :
    jp_clean (jp_clean l) = jp_clean l := by
  have hcc : ∀ m : Text, (∀ c ∈ m, isBidiCtrl c = false) → clean_controls m = m := by
    intro m hm
    unfold clean_controls
    rw [List.filter_eq_self]
    intro a ha
    simp [hm a ha]
  have hstrip : ∀ c ∈ pyStrip l, isBidiCtrl c = false :=
    fun c hc => h c (mem_of_mem_pyStrip hc)
  have h1 : jp_clean l = pyStrip l := hcc (pyStrip l) hstrip
  rw [h1]
  show clean_controls (pyStrip (pyStrip l)) = pyStrip l
  rw [pyStrip_idem]
  exact hcc (pyStrip l) hstrip

theorem claim5_normalizer_idempotent_witness :
    (∀ c ∈ (['a', ' ', 'あ'] : Text), isBidiCtrl c = false) ∧
    jp_clean (jp_clean ['a', ' ', 'あ']) = jp_clean ['a', ' ', 'あ'] :=
  ⟨by decide, claim5_normalizer_idempotent ['a', ' ', 'あ'] (by decide)⟩

/-! ## Reading fallback (C6) -/

/-- C6 counterexample: a token whose analyzer reading is "*" does not fall
back to its surface on the query path — tokenize_reading keeps "*" as the
token's reading. -/
theorem claim6_counterexample :
    tokenize_reading [⟨['食'], ['*'], 0, 1⟩] = [['*']] ∧
    tokenize_reading [⟨['食'], ['*'], 0, 1⟩] ≠
      [(⟨['食'], ['*'], 0, 1⟩ : MToken).surface] := by
  constructor
  · decide
  · decide

/-- C6 amended: the indexing path (tokenize_reading_kana) falls back to the
surface for both empty and "*" readings, while the query path
(tokenize_reading) falls back only for empty readings. -/
theorem claim6_reading_fallback (t : MToken)
    (h : t.reading = [] ∨ t.reading = ['*']) :
    kanaReading t = pyStrip t.surface ∧
    (t.reading = [] → queryReading t = pyStrip t.surface) := by
  constructor
  · unfold kanaReading
    rw [if_pos h]
  · intro h0
    unfold queryReading
    rw [if_pos h0]

theorem claim6_reading_fallback_witness :
    ((⟨['食'], ['*'], 0, 1⟩ : MToken).reading = [] ∨
      (⟨['食'], ['*'], 0, 1⟩ : MToken).reading = ['*']) ∧
    kanaReading ⟨['食'], ['*'], 0, 1⟩ = pyStrip ['食'] :=
  ⟨Or.inr rfl, (claim6_reading_fallback ⟨['食'], ['*'], 0, 1⟩ (Or.inr rfl)).1⟩

/-! ## Retriever lemmas (C2, C8) -/

theorem containsSub_iff (t p : Text) : containsSub t p = true ↔ p <:+: t := by
  unfold containsSub
  rw [List.any_eq_true]
  constructor
  · rintro ⟨s, hs, hps⟩
    exact List.infix_iff_prefix_suffix.mpr
      ⟨s, List.isPrefixOf_iff_prefix.mp hps, (List.mem_tails _ _).mp hs⟩
  · intro h
    obtain ⟨s, h1, h2⟩ := List.infix_iff_prefix_suffix.mp h
    exact ⟨s, (List.mem_tails _ _).mpr h2, List.isPrefixOf_iff_prefix.mpr h1⟩

theorem postFilter_sound (phrases : List Text) (topn : Nat) (rows : List Row)
    (hp : phrases ≠ []) :
    (postFilter phrases topn rows).length ≤ topn ∧
    ∀ r ∈ postFilter phrases topn rows, ∀ p ∈ phrases, p <:+: r.text := by
  unfold postFilter
  rw [if_pos hp]
  refine ⟨List.length_take_le _ _, ?_⟩
  intro r hr p hp'
  have hrf : r ∈ rows.filter (fun r => has_all phrases r.text) :=
    List.mem_of_mem_take hr
  have hall := List.of_mem_filter hrf
  unfold has_all at hall
  rw [List.all_eq_true] at hall
  exact (containsSub_iff _ _).mp (hall p hp')

/-- C2: with a non-empty phrase list, every record the retriever returns has
a text containing every phrase as a literal (case-sensitive, unnormalized)
substring, and at most topn records are returned. -/
theorem claim2_phrase_filter_and_cap (st : Store) (qts : List MToken)
    (phrases : List Text) (topn : Nat) (res : List Row) (hp : phrases ≠ [])
    (h : query_hits st qts phrases topn = .ok res) :
    res.length ≤ topn ∧ ∀ r ∈ res, ∀ p ∈ phrases, p <:+: r.text := by
  unfold query_hits at h
  cases hm : build_match_query qts with
  | none =>
    rw [hm] at h
    injection h with h'
    subst h'
    simp
  | some expr =>
    rw [hm] at h
    cases hf : fetchRanked st (topn * 5) with
    | ok rows =>
      rw [hf] at h
      injection h with h'
      subst h'
      exact postFilter_sound phrases topn rows hp
    | error err =>
      rw [hf] at h
      cases err with
      | noSuchTableFts =>
        injection h with h'
        subst h'
        simp
      | noSuchFunctionBm25 =>
        cases hg : fetchRaw st (topn * 5) with
        | ok rows =>
          rw [hg] at h
          injection h with h'
          subst h'
          exact postFilter_sound phrases topn rows hp
        | error err2 =>
          rw [hg] at h
          exact absurd h (by simp)
      | other =>
        exact absurd h (by simp)

theorem claim2_phrase_filter_and_cap_witness :
    ([['ん']] ≠ ([] : List Text)) ∧
    query_hits ⟨true, true, [⟨[], [], 0, 0, ['x'], []⟩, ⟨[], [], 0, 0, ['ん'], []⟩], []⟩
        [⟨['あ'], [], 0, 1⟩] [['ん']] 1 = .ok [⟨[], [], 0, 0, ['ん'], []⟩] ∧
    (([⟨[], [], 0, 0, ['ん'], []⟩] : List Row).length ≤ 1 ∧
      ∀ r ∈ ([⟨[], [], 0, 0, ['ん'], []⟩] : List Row),
        ∀ p ∈ [['ん']], p <:+: r.text) := by
  refine ⟨by decide, by rfl, ?_⟩
  exact claim2_phrase_filter_and_cap
    ⟨true, true, [⟨[], [], 0, 0, ['x'], []⟩, ⟨[], [], 0, 0, ['ん'], []⟩], []⟩
    [⟨['あ'], [], 0, 1⟩] [['ん']] 1 _ (by decide) (by rfl)

/-- C8 counterexample: with the index absent (no fts table) the CLI search
path does not report a zero-result outcome — the operational error escapes
rather than being turned into an advisory. -/
theorem claim8_counterexample :
    search ⟨false, true, [], []⟩ [⟨['君'], ['キ', 'ミ'], 0, 1⟩] 20 =
      .error .noSuchTableFts := by rfl

/-- C8 amended: when the index store is absent the GUI retriever query_hits
returns an empty result set without raising (the distinct advisory is the
startup notice the UI shows outside the retriever); the CLI search instead
propagates the operational error (see the counterexample). -/
theorem claim8_absent_index_empty (st : Store) (qts : List MToken)
    (phrases : List Text) (topn : Nat) (h : st.ftsBuilt = false) :
    query_hits st qts phrases topn = .ok [] := by
  unfold query_hits
  cases build_match_query qts with
  | none => rfl
  | some expr =>
    have hf : fetchRanked st (topn * 5) = .error .noSuchTableFts := by
      unfold fetchRanked
      rw [h]
      rfl
    rw [hf]

theorem claim8_absent_index_empty_witness :
    (Store.ftsBuilt ⟨false, true, [], []⟩ = false) ∧
    query_hits ⟨false, true, [], []⟩ [⟨['君'], ['キ', 'ミ'], 0, 1⟩] [] 5 = .ok [] :=
  ⟨rfl, claim8_absent_index_empty ⟨false, true, [], []⟩ _ _ _ rfl⟩

/-! ## Ingest idempotence (C7) -/

/-- C7: re-ingesting the same record is not a no-op for the stored state.
The entries table does keep exactly one row with the id (INSERT OR IGNORE),
but the unguarded fts INSERT appends a second derived index row for the same
rowid, so the state after the second ingest differs from the state after the
first. -/
theorem claim7_reingest_duplicates_fts :
    (insert_entry oneTokenAnalyzer
        (insert_entry oneTokenAnalyzer ⟨[], []⟩ sampleRow) sampleRow).entries =
      (insert_entry oneTokenAnalyzer ⟨[], []⟩ sampleRow).entries ∧
    (insert_entry oneTokenAnalyzer
        (insert_entry oneTokenAnalyzer ⟨[], []⟩ sampleRow) sampleRow).entries.length = 1 ∧
    (insert_entry oneTokenAnalyzer
        (insert_entry oneTokenAnalyzer ⟨[], []⟩ sampleRow) sampleRow).fts ≠
      (insert_entry oneTokenAnalyzer ⟨[], []⟩ sampleRow).fts ∧
    (insert_entry oneTokenAnalyzer
        (insert_entry oneTokenAnalyzer ⟨[], []⟩ sampleRow) sampleRow).fts.length = 2 := by
  refine ⟨by decide, by decide, by decide, by decide⟩

/-! ## Snippet cache (C9) -/

theorem lookup_write (fs : CacheFS) (name : Text) (sz : Nat) :
    (fs.write name sz).lookup name = some sz := by
  unfold CacheFS.write CacheFS.lookup
  rw [List.find?_append]
  have h1 : (fs.files.filter (fun f => !(f.1 == name))).find?
      (fun f => f.1 == name) = none := by
    rw [List.find?_eq_none]
    intro x hx
    have := List.of_mem_filter hx
    simpa using this
  rw [h1]
  simp [List.find?]

/-- C9: the cache filename is a function of (media, start, end, pad) alone,
and once a call has produced the cached snippet (the transcoder output being
above the 1024-byte sanity threshold), an identical second call returns that
same file, leaves the cache unchanged, and does not invoke the transcoder. -/
theorem claim9_cache_determinism (transcode : Int → Int → Text → Option Nat)
    (fs : CacheFS) (media : Text) (s e p : Int) (sz : Nat)
    (hrun : transcode (max 0 (s - p)) (max 1 ((e - s) + 2 * p))
      (snippetName media s e p) = some sz)
    (hsz : sz > 1024) :
    (make_snippet transcode fs media s e p).2.1 = some (snippetName media s e p) ∧
    make_snippet transcode (make_snippet transcode fs media s e p).1 media s e p =
      ((make_snippet transcode fs media s e p).1,
        some (snippetName media s e p), false) := by
  unfold make_snippet
  cases hl : CacheFS.lookup fs (snippetName media s e p) with
  | some sz0 =>
    by_cases h0 : sz0 > 1024
    · simp [hl, h0]
    · simp only [hl, h0, decide_eq_true_eq, decide_eq_false_iff_not, if_neg,
        Bool.false_eq_true, if_false]
      simp [hrun, h0, lookup_write, hsz]
  | none =>
    simp [hl, hrun, lookup_write, hsz]

theorem claim9_cache_determinism_witness :
    ((fun _ _ _ => some 2000 : Int → Int → Text → Option Nat)
        (max 0 ((0 : Int) - 400)) (max 1 (((1000 : Int) - 0) + 2 * 400))
        (snippetName ['m'] 0 1000 400) = some 2000) ∧
    (2000 > 1024) ∧
    (make_snippet (fun _ _ _ => some 2000) ⟨[]⟩ ['m'] 0 1000 400).2.1 =
      some (snippetName ['m'] 0 1000 400) ∧
    make_snippet (fun _ _ _ => some 2000)
        (make_snippet (fun _ _ _ => some 2000) ⟨[]⟩ ['m'] 0 1000 400).1
        ['m'] 0 1000 400 =
      ((make_snippet (fun _ _ _ => some 2000) ⟨[]⟩ ['m'] 0 1000 400).1,
        some (snippetName ['m'] 0 1000 400), false) := by
  refine ⟨rfl, by decide, ?_⟩
  exact claim9_cache_determinism (fun _ _ _ => some 2000) ⟨[]⟩ ['m'] 0 1000 400
    2000 rfl (by decide)

/-! ## LRC parsing (C10) -/

/-- C10: the lyric line "[01:02.50]こんにちは" parses to exactly one entry, with
start_ms 62500 (the two-digit fraction ".50" normalized to 500 ms), end_ms
65500 (start plus the default 3000 ms duration), and text こんにちは; and in
general every entry produced from a line carries that line's tag-stripped
cleaned text, one entry per timestamp tag found on the line. -/
theorem claim10_lrc_scenario :
    (parse_lrc "p.lrc".toList ["[01:02.50]こんにちは".toList]).map
        (fun en => (en.start_ms, en.end_ms, en.text)) =
      [((62500 : Int), (65500 : Int), "こんにちは".toList)] ∧
    (∀ path line, ∀ en ∈ lrcLineEntries path line,
      en.text = nfkc (pyStrip (scanTagsF (line.length + 1) line).2)) ∧
    (∀ path line, lrcLineEntries path line ≠ [] →
      (lrcLineEntries path line).length =
        (scanTagsF (line.length + 1) line).1.length) := by
  refine ⟨by decide, ?_, ?_⟩
  · intro path line en hen
    unfold lrcLineEntries at hen
    by_cases h1 : (scanTagsF (line.length + 1) line).1 = []
    · rw [if_pos h1] at hen
      simp at hen
    · rw [if_neg h1] at hen
      by_cases h2 : nfkc (pyStrip (scanTagsF (line.length + 1) line).2) = []
      · rw [if_pos h2] at hen
        simp at hen
      · rw [if_neg h2] at hen
        obtain ⟨tg, _, rfl⟩ := List.mem_map.mp hen
        rfl
  · intro path line hne
    unfold lrcLineEntries at hne ⊢
    by_cases h1 : (scanTagsF (line.length + 1) line).1 = []
    · rw [if_pos h1] at hne
      exact absurd rfl hne
    · rw [if_neg h1] at hne ⊢
      by_cases h2 : nfkc (pyStrip (scanTagsF (line.length + 1) line).2) = []
      · rw [if_pos h2] at hne
        exact absurd rfl hne
      · rw [if_neg h2]
        exact List.length_map _ _

/-! ## Highlighter lemmas: phrase ranges (C3, C4) -/

theorem findFrom_sound (text p : Text) (start i : Nat) :
    findFrom text p start = some i →
    p.isPrefixOf (text.drop i) = true ∧ start ≤ i ∧ i + p.length ≤ text.length := by
  induction start using findFrom.induct text p with
  | case1 x hx hp =>
    intro h
    unfold findFrom at h
    rw [dif_pos hx, if_pos hp] at h
    injection h with h'
    subst h'
    exact ⟨hp, le_refl _, hx⟩
  | case2 x hx hp ih =>
    intro h
    unfold findFrom at h
    rw [dif_pos hx, if_neg hp] at h
    obtain ⟨h1, h2, h3⟩ := ih h
    exact ⟨h1, by omega, h3⟩
  | case3 x hx =>
    intro h
    unfold findFrom at h
    rw [dif_neg hx] at h
    exact absurd h (by simp)

theorem occsFrom_mem (text p : Text) :
    ∀ fuel start iv, iv ∈ occsFrom text p start fuel →
      ∃ i, iv = (i, i + p.length) ∧ p.isPrefixOf (text.drop i) = true ∧
        i + p.length ≤ text.length := by
  intro fuel
  induction fuel with
  | zero =>
    intro start iv h
    simp [occsFrom] at h
  | succ fuel ih =>
    intro start iv h
    unfold occsFrom at h
    cases hf : findFrom text p start with
    | none =>
      rw [hf] at h
      simp at h
    | some i =>
      rw [hf] at h
      rcases List.mem_cons.mp h with h1 | h1
      · obtain ⟨hpre, _, hb⟩ := findFrom_sound text p start i hf
        exact ⟨i, h1, hpre, hb⟩
      · exact ih _ _ h1

theorem mergeRanges_spec : ∀ l : List Iv,
    List.Pairwise (fun a b : Iv => a.1 ≤ b.1) l →
    (∀ iv ∈ l, iv.1 < iv.2) →
    List.Pairwise (fun a b : Iv => a.2 < b.1) (mergeRanges l) ∧
    (∀ iv ∈ mergeRanges l, iv.1 < iv.2) ∧
    (∀ iv ∈ mergeRanges l, ∃ jv ∈ l, jv.1 = iv.1) ∧
    (∀ iv ∈ mergeRanges l, ∀ n, iv.1 ≤ n → n < iv.2 →
      ∃ jv ∈ l, jv.1 ≤ n ∧ n < jv.2) := by
  intro l
  induction l using mergeRanges.induct with
  | case1 =>
    intro _ _
    rw [mergeRanges.eq_1]
    simp
  | case2 r =>
    intro _ hwf
    rw [mergeRanges.eq_2]
    refine ⟨by simp, ?_, ?_, ?_⟩
    · intro iv hiv
      rw [List.mem_singleton] at hiv
      subst hiv
      exact hwf iv (by simp)
    · intro iv hiv
      rw [List.mem_singleton] at hiv
      exact ⟨r, by simp, by rw [hiv]⟩
    · intro iv hiv n h1 h2
      rw [List.mem_singleton] at hiv
      subst hiv
      exact ⟨iv, by simp, h1, h2⟩
  | case3 r1 r2 rest hgt ih =>
    intro hsort hwf
    have hsort2 : List.Pairwise (fun a b : Iv => a.1 ≤ b.1) (r2 :: rest) :=
      hsort.tail
    have hwf2 : ∀ iv ∈ r2 :: rest, iv.1 < iv.2 :=
      fun iv h => hwf iv (List.mem_cons_of_mem r1 h)
    obtain ⟨i1, i2, i3, i4⟩ := ih hsort2 hwf2
    have hme : mergeRanges (r1 :: r2 :: rest) = r1 :: mergeRanges (r2 :: rest) := by
      rw [mergeRanges.eq_3, if_pos hgt]
    rw [hme]
    have hr2le : ∀ jv ∈ r2 :: rest, r2.1 ≤ jv.1 := by
      intro jv hjv
      rcases List.mem_cons.mp hjv with h | h
      · rw [h]
      · exact (List.pairwise_cons.mp hsort2).1 jv h
    refine ⟨?_, ?_, ?_, ?_⟩
    · rw [List.pairwise_cons]
      refine ⟨?_, i1⟩
      intro y hy
      obtain ⟨jv, hjv, hj1⟩ := i3 y hy
      have := hr2le jv hjv
      omega
    · intro iv hiv
      rcases List.mem_cons.mp hiv with h | h
      · rw [h]; exact hwf r1 (by simp)
      · exact i2 iv h
    · intro iv hiv
      rcases List.mem_cons.mp hiv with h | h
      · exact ⟨r1, by simp, by rw [h]⟩
      · obtain ⟨jv, hjv, hj⟩ := i3 iv h
        exact ⟨jv, List.mem_cons_of_mem r1 hjv, hj⟩
    · intro iv hiv n h1 h2
      rcases List.mem_cons.mp hiv with h | h
      · subst h
        exact ⟨iv, by simp, h1, h2⟩
      · obtain ⟨jv, hjv, hj⟩ := i4 iv h n h1 h2
        exact ⟨jv, List.mem_cons_of_mem r1 hjv, hj⟩
  | case4 r1 r2 rest hle ih =>
    intro hsort hwf
    have hr12 : r1.1 ≤ r2.1 := (List.pairwise_cons.mp hsort).1 r2 (by simp)
    have hr1 : r1.1 < r1.2 := hwf r1 (by simp)
    have hr2 : r2.1 < r2.2 := hwf r2 (by simp)
    have hsort' : List.Pairwise (fun a b : Iv => a.1 ≤ b.1)
        ((r1.1, max r1.2 r2.2) :: rest) := by
      rw [List.pairwise_cons]
      constructor
      · intro z hz
        exact (List.pairwise_cons.mp hsort).1 z (List.mem_cons_of_mem r2 hz)
      · exact hsort.tail.tail
    have hwf' : ∀ iv ∈ (r1.1, max r1.2 r2.2) :: rest, iv.1 < iv.2 := by
      intro iv hiv
      rcases List.mem_cons.mp hiv with h | h
      · rw [h]; simp; omega
      · exact hwf iv (List.mem_cons_of_mem r1 (List.mem_cons_of_mem r2 h))
    obtain ⟨i1, i2, i3, i4⟩ := ih hsort' hwf'
    have hme : mergeRanges (r1 :: r2 :: rest) =
        mergeRanges ((r1.1, max r1.2 r2.2) :: rest) := by
      rw [mergeRanges.eq_3, if_neg hle]
    rw [hme]
    refine ⟨i1, i2, ?_, ?_⟩
    · intro iv hiv
      obtain ⟨jv, hjv, hj⟩ := i3 iv hiv
      rcases List.mem_cons.mp hjv with h | h
      · exact ⟨r1, by simp, by rw [← hj, h]⟩
      · exact ⟨jv, List.mem_cons_of_mem r1 (List.mem_cons_of_mem r2 h), hj⟩
    · intro iv hiv n h1 h2
      obtain ⟨jv, hjv, hja, hjb⟩ := i4 iv hiv n h1 h2
      rcases List.mem_cons.mp hjv with h | h
      · subst h
        simp at hja hjb
        by_cases hn : n < r1.2
        · exact ⟨r1, by simp, hja, hn⟩
        · refine ⟨r2, by simp, by omega, by omega⟩
      · exact ⟨jv, List.mem_cons_of_mem r1 (List.mem_cons_of_mem r2 h), hja, hjb⟩

theorem phrase_ranges_facts (text : Text) (phrases : List Text) :
    List.Pairwise (fun a b : Iv => a.2 < b.1) (find_phrase_ranges text phrases) ∧
    (∀ iv ∈ find_phrase_ranges text phrases, iv.1 < iv.2) ∧
    (∀ iv ∈ find_phrase_ranges text phrases, ∀ n, iv.1 ≤ n → n < iv.2 →
      PhrasePos text phrases n) := by
  unfold find_phrase_ranges
  set raw := phrases.flatMap (fun p =>
    if p = [] then [] else occsFrom text p 0 (text.length + 1)) with hraw
  set sortedR := List.insertionSort ivLE raw with hsortedR
  have hmemraw : ∀ iv ∈ raw,
      ∃ p ∈ phrases, p ≠ [] ∧ ∃ i, iv = (i, i + p.length) ∧
        p.isPrefixOf (text.drop i) = true ∧ i + p.length ≤ text.length := by
    intro iv hiv
    rw [hraw] at hiv
    obtain ⟨p, hp, hin⟩ := List.mem_flatMap.mp hiv
    by_cases hpe : p = []
    · rw [if_pos hpe] at hin
      simp at hin
    · rw [if_neg hpe] at hin
      obtain ⟨i, hival, hpre, hb⟩ := occsFrom_mem text p _ _ iv hin
      exact ⟨p, hp, hpe, i, hival, hpre, hb⟩
  have hperm : List.Perm sortedR raw := List.perm_insertionSort ivLE raw
  have hmem : ∀ iv ∈ sortedR,
      ∃ p ∈ phrases, p ≠ [] ∧ ∃ i, iv = (i, i + p.length) ∧
        p.isPrefixOf (text.drop i) = true ∧ i + p.length ≤ text.length :=
    fun iv h => hmemraw iv (hperm.subset h)
  have hwf : ∀ iv ∈ sortedR, iv.1 < iv.2 := by
    intro iv h
    obtain ⟨p, _, hpe, i, hival, _, _⟩ := hmem iv h
    have hlp : p.length ≠ 0 := fun h0 => hpe (List.length_eq_zero.mp h0)
    rw [hival]
    simp only
    omega
  have hsorted : List.Pairwise (fun a b : Iv => a.1 ≤ b.1) sortedR := by
    have hs := List.sorted_insertionSort ivLE raw
    exact hs.imp (fun hab => by unfold ivLE at hab; omega)
  obtain ⟨m1, m2, m3, m4⟩ := mergeRanges_spec sortedR hsorted hwf
  refine ⟨m1, m2, ?_⟩
  intro iv hiv n h1 h2
  obtain ⟨jv, hjv, hja, hjb⟩ := m4 iv hiv n h1 h2
  obtain ⟨p, hp, hpe, i, hival, hpre, hb⟩ := hmem jv hjv
  subst hival
  exact ⟨p, hp, hpe, i, hpre, by simpa using hja, by simpa using hjb⟩

/-! ## Highlighter lemmas: interval subtraction (C3, C4) -/

theorem subStep_mem (b xy piece : Iv) :
    piece ∈ subStep b xy ↔
      ((b.2 ≤ xy.1 ∨ b.1 ≥ xy.2) ∧ piece = xy) ∨
      (¬(b.2 ≤ xy.1 ∨ b.1 ≥ xy.2) ∧ xy.1 < b.1 ∧ piece = (xy.1, b.1)) ∨
      (¬(b.2 ≤ xy.1 ∨ b.1 ≥ xy.2) ∧ b.2 < xy.2 ∧ piece = (b.2, xy.2)) := by
  unfold subStep
  by_cases hc : b.2 ≤ xy.1 ∨ b.1 ≥ xy.2
  · rw [if_pos hc]
    simp [hc]
  · rw [if_neg hc]
    by_cases h1 : xy.1 < b.1 <;> by_cases h2 : b.2 < xy.2 <;>
      simp [h1, h2, hc]

theorem subStep_bounds (b xy piece : Iv) (h : piece ∈ subStep b xy) :
    xy.1 ≤ piece.1 ∧ piece.2 ≤ xy.2 := by
  rcases (subStep_mem b xy piece).mp h with ⟨hc, rfl⟩ | ⟨hc, h1, rfl⟩ | ⟨hc, h2, rfl⟩
  · exact ⟨le_refl _, le_refl _⟩
  · constructor
    · exact le_refl _
    · simp only
      omega
  · constructor
    · simp only
      omega
    · exact le_refl _

theorem subStep_avoid (b xy piece : Iv) (h : piece ∈ subStep b xy) (n : Nat)
    (h1 : piece.1 ≤ n) (h2 : n < piece.2) : ¬(b.1 ≤ n ∧ n < b.2) := by
  rcases (subStep_mem b xy piece).mp h with ⟨hc, rfl⟩ | ⟨hc, hx, rfl⟩ | ⟨hc, hx, rfl⟩
  · omega
  · simp only at h1 h2
    omega
  · simp only at h1 h2
    omega

theorem subStep_chain (b xy : Iv) (hb : b.1 ≤ b.2) :
    List.Pairwise (fun u v : Iv => u.2 ≤ v.1) (subStep b xy) := by
  unfold subStep
  by_cases hc : b.2 ≤ xy.1 ∨ b.1 ≥ xy.2
  · rw [if_pos hc]
    simp
  · rw [if_neg hc]
    by_cases h1 : xy.1 < b.1
    · by_cases h2 : b.2 < xy.2
      · simp [h1, h2]
        omega
      · simp [h1, h2]
    · by_cases h2 : b.2 < xy.2
      · simp [h1, h2]
      · simp [h1, h2]

theorem subStep_complete (b xy : Iv) (n : Nat) (h1 : xy.1 ≤ n) (h2 : n < xy.2)
    (h3 : ¬(b.1 ≤ n ∧ n < b.2)) :
    ∃ piece ∈ subStep b xy, piece.1 ≤ n ∧ n < piece.2 := by
  by_cases hc : b.2 ≤ xy.1 ∨ b.1 ≥ xy.2
  · exact ⟨xy, (subStep_mem b xy xy).mpr (Or.inl ⟨hc, rfl⟩), h1, h2⟩
  · by_cases hn : n < b.1
    · refine ⟨(xy.1, b.1), (subStep_mem b xy _).mpr (Or.inr (Or.inl ⟨hc, by omega, rfl⟩)), h1, hn⟩
    · refine ⟨(b.2, xy.2), (subStep_mem b xy _).mpr (Or.inr (Or.inr ⟨hc, by omega, rfl⟩)), by omega, h2⟩

theorem stepSegs_chain (b : Iv) (hb : b.1 ≤ b.2) (segs : List Iv)
    (h : List.Pairwise (fun u v : Iv => u.2 ≤ v.1) segs) :
    List.Pairwise (fun u v : Iv => u.2 ≤ v.1) (segs.flatMap (subStep b)) := by
  induction segs with
  | nil => simp
  | cons s rest ih =>
    rw [List.flatMap_cons, List.pairwise_append]
    obtain ⟨hhead, htail⟩ := List.pairwise_cons.mp h
    refine ⟨subStep_chain b s hb, ih htail, ?_⟩
    intro u hu v hv
    obtain ⟨t, ht, hv'⟩ := List.mem_flatMap.mp hv
    have hub := subStep_bounds b s u hu
    have hvb := subStep_bounds b t v hv'
    have hst := hhead t ht
    omega

theorem subFold_facts : ∀ (bs : List Iv), (∀ b ∈ bs, b.1 ≤ b.2) →
    ∀ segs : List Iv, List.Pairwise (fun u v : Iv => u.2 ≤ v.1) segs →
    List.Pairwise (fun u v : Iv => u.2 ≤ v.1)
      (bs.foldl (fun s b => s.flatMap (subStep b)) segs) ∧
    (∀ piece ∈ bs.foldl (fun s b => s.flatMap (subStep b)) segs,
      ∃ seg ∈ segs, seg.1 ≤ piece.1 ∧ piece.2 ≤ seg.2) ∧
    (∀ piece ∈ bs.foldl (fun s b => s.flatMap (subStep b)) segs,
      ∀ n, piece.1 ≤ n → n < piece.2 → ∀ b ∈ bs, ¬(b.1 ≤ n ∧ n < b.2)) ∧
    (∀ n, (∃ seg ∈ segs, seg.1 ≤ n ∧ n < seg.2) →
      (∀ b ∈ bs, ¬(b.1 ≤ n ∧ n < b.2)) →
      ∃ piece ∈ bs.foldl (fun s b => s.flatMap (subStep b)) segs,
        piece.1 ≤ n ∧ n < piece.2) := by
  intro bs
  induction bs with
  | nil =>
    intro _ segs hchain
    refine ⟨hchain, ?_, ?_, ?_⟩
    · intro piece hp
      exact ⟨piece, hp, le_refl _, le_refl _⟩
    · intro piece _ n _ _ b hb
      simp at hb
    · intro n ⟨seg, hseg, h1, h2⟩ _
      exact ⟨seg, hseg, h1, h2⟩
  | cons b bs ih =>
    intro hb segs hchain
    have hb1 : b.1 ≤ b.2 := hb b (by simp)
    have hbs : ∀ c ∈ bs, c.1 ≤ c.2 := fun c hc => hb c (List.mem_cons_of_mem b hc)
    have hchain' : List.Pairwise (fun u v : Iv => u.2 ≤ v.1)
        (segs.flatMap (subStep b)) := stepSegs_chain b hb1 segs hchain
    obtain ⟨i1, i2, i3, i4⟩ := ih hbs (segs.flatMap (subStep b)) hchain'
    rw [List.foldl_cons]
    refine ⟨i1, ?_, ?_, ?_⟩
    · intro piece hp
      obtain ⟨seg', hseg', hs1, hs2⟩ := i2 piece hp
      obtain ⟨seg, hseg, hv⟩ := List.mem_flatMap.mp hseg'
      have := subStep_bounds b seg seg' hv
      exact ⟨seg, hseg, by omega, by omega⟩
    · intro piece hp n h1 h2 c hc
      rcases List.mem_cons.mp hc with h | h
      · subst h
        obtain ⟨seg', hseg', hs1, hs2⟩ := i2 piece hp
        obtain ⟨seg, hseg, hv⟩ := List.mem_flatMap.mp hseg'
        exact subStep_avoid c seg seg' hv n (by omega) (by omega)
      · exact i3 piece hp n h1 h2 c h
    · intro n ⟨seg, hseg, h1, h2⟩ hav
      have havb : ¬(b.1 ≤ n ∧ n < b.2) := hav b (by simp)
      obtain ⟨piece, hpiece, hp1, hp2⟩ := subStep_complete b seg n h1 h2 havb
      refine i4 n ⟨piece, List.mem_flatMap.mpr ⟨seg, hseg, hpiece⟩, hp1, hp2⟩ ?_
      intro c hc
      exact hav c (List.mem_cons_of_mem b hc)

theorem subtract_intervals_facts (a : Iv) (bs : List Iv)
    (hb : ∀ b ∈ bs, b.1 ≤ b.2) :
    (∀ piece ∈ subtract_intervals a bs,
      a.1 ≤ piece.1 ∧ piece.2 ≤ a.2 ∧ piece.1 < piece.2) ∧
    List.Pairwise (fun u v : Iv => u.2 ≤ v.1) (subtract_intervals a bs) ∧
    (∀ piece ∈ subtract_intervals a bs, ∀ n, piece.1 ≤ n → n < piece.2 →
      ∀ b ∈ bs, ¬(b.1 ≤ n ∧ n < b.2)) ∧
    (∀ n, a.1 ≤ n → n < a.2 → (∀ b ∈ bs, ¬(b.1 ≤ n ∧ n < b.2)) →
      ∃ piece ∈ subtract_intervals a bs, piece.1 ≤ n ∧ n < piece.2) := by
  obtain ⟨f1, f2, f3, f4⟩ := subFold_facts bs hb [a] (by simp)
  unfold subtract_intervals
  refine ⟨?_, ?_, ?_, ?_⟩
  · intro piece hp
    have hp' := List.mem_of_mem_filter hp
    obtain ⟨seg, hseg, hs1, hs2⟩ := f2 piece hp'
    rw [List.mem_singleton] at hseg
    subst hseg
    have hlt := List.of_mem_filter hp
    exact ⟨hs1, hs2, by simpa using hlt⟩
  · exact f1.sublist (List.filter_sublist _)
  · intro piece hp
    exact f3 piece (List.mem_of_mem_filter hp)
  · intro n h1 h2 h3
    obtain ⟨piece, hp, hn1, hn2⟩ := f4 n ⟨a, by simp, h1, h2⟩ h3
    refine ⟨piece, List.mem_filter.mpr ⟨hp, ?_⟩, hn1, hn2⟩
    simpa using (by omega : piece.1 < piece.2)

/-! ## Highlighter lemmas: the overlap-resolution walk (C3, C4) -/

theorem walk_inv (P : HLabel → Nat → Prop) :
    ∀ (xs acc : List LSpan),
    List.Pairwise (fun a b : LSpan => a.e ≤ b.s) xs →
    (∀ x ∈ xs, x.s < x.e) →
    (∀ x ∈ xs, SpanIn P x) →
    List.Pairwise (fun a b : LSpan => b.e ≤ a.s) acc →
    (∀ y ∈ acc, y.s < y.e) →
    (∀ y ∈ acc, SpanIn P y) →
    (∀ y ∈ acc, ∀ x ∈ xs, y.e ≤ x.s) →
    List.Pairwise (fun a b : LSpan => b.e ≤ a.s) (xs.foldl walkStep acc) ∧
    (∀ y ∈ xs.foldl walkStep acc, y.s < y.e) ∧
    (∀ y ∈ xs.foldl walkStep acc, SpanIn P y) ∧
    (∀ z, (z ∈ acc ∨ z ∈ xs) → ∀ n, z.s ≤ n → n < z.e →
      ∃ y ∈ xs.foldl walkStep acc, y.lab = z.lab ∧ y.s ≤ n ∧ n < y.e) := by
  intro xs
  induction xs with
  | nil =>
    intro acc _ _ _ h4 h5 h6 _
    refine ⟨h4, h5, h6, ?_⟩
    intro z hz n hn1 hn2
    rcases hz with hz | hz
    · exact ⟨z, hz, rfl, hn1, hn2⟩
    · simp at hz
  | cons x xs ih =>
    intro acc hpw hwf hsp hacc haccwf haccsp hsep
    obtain ⟨hxhead, hpw'⟩ := List.pairwise_cons.mp hpw
    have hxwf : x.s < x.e := hwf x (by simp)
    have hxsp : SpanIn P x := hsp x (by simp)
    have hnodrop : ¬(x.lab = HLabel.token ∧
        ∃ q ∈ acc, q.lab = HLabel.phrase ∧ ¬(x.e ≤ q.s ∨ x.s ≥ q.e)) := by
      rintro ⟨-, q, hq, -, hover⟩
      exact hover (Or.inr (hsep q hq x (by simp)))
    rw [List.foldl_cons]
    cases acc with
    | nil =>
      have hstep : walkStep [] x = [x] := by
        unfold walkStep
        rw [if_neg hnodrop]
      rw [hstep]
      have hres := ih [x] hpw'
        (fun z hz => hwf z (List.mem_cons_of_mem x hz))
        (fun z hz => hsp z (List.mem_cons_of_mem x hz))
        (by simp) (by simpa using hxwf) (by simpa using hxsp)
        (by
          intro y hy z hz
          rw [List.mem_singleton] at hy
          subst hy
          exact hxhead z hz)
      obtain ⟨r1, r2, r3, r4⟩ := hres
      refine ⟨r1, r2, r3, ?_⟩
      intro z hz n hn1 hn2
      rcases hz with hz | hz
      · simp at hz
      · rcases List.mem_cons.mp hz with hz | hz
        · subst hz
          exact r4 z (Or.inl (by simp)) n hn1 hn2
        · exact r4 z (Or.inr hz) n hn1 hn2
    | cons l rest =>
      obtain ⟨hlrest, hrestpw⟩ := List.pairwise_cons.mp hacc
      have hlwf : l.s < l.e := haccwf l (by simp)
      have hlsp : SpanIn P l := haccsp l (by simp)
      have hlex : l.e ≤ x.s := hsep l (by simp) x (by simp)
      by_cases hco : l.lab = x.lab ∧ x.s ≤ l.e
      · -- coalesce: x starts exactly at the end of the last emitted span
        have hxs : x.s = l.e := by omega
        have hstep : walkStep (l :: rest) x =
            LSpan.mk l.s (max l.e x.e) l.lab :: rest := by
          unfold walkStep
          rw [if_neg hnodrop]
          exact if_pos hco
        rw [hstep]
        have hwsp : SpanIn P (LSpan.mk l.s (max l.e x.e) l.lab) := by
          intro n hn1 hn2
          simp only at hn1 hn2
          by_cases hn : n < l.e
          · exact hlsp n hn1 hn
          · have hn3 : n < x.e := by omega
            have := hxsp n (by omega) hn3
            rw [hco.1]
            exact this
        have hres := ih (LSpan.mk l.s (max l.e x.e) l.lab :: rest) hpw'
          (fun z hz => hwf z (List.mem_cons_of_mem x hz))
          (fun z hz => hsp z (List.mem_cons_of_mem x hz))
          (by
            rw [List.pairwise_cons]
            refine ⟨?_, hrestpw⟩
            intro y hy
            simpa using hlrest y hy)
          (by
            intro y hy
            rcases List.mem_cons.mp hy with hy | hy
            · subst hy
              simp only
              omega
            · exact haccwf y (List.mem_cons_of_mem l hy))
          (by
            intro y hy
            rcases List.mem_cons.mp hy with hy | hy
            · subst hy
              exact hwsp
            · exact haccsp y (List.mem_cons_of_mem l hy))
          (by
            intro y hy z hz
            rcases List.mem_cons.mp hy with hy | hy
            · subst hy
              have h1 := hxhead z hz
              simp only
              omega
            · have := hsep y (List.mem_cons_of_mem l hy) z
                (List.mem_cons_of_mem x hz)
              exact this)
        obtain ⟨r1, r2, r3, r4⟩ := hres
        refine ⟨r1, r2, r3, ?_⟩
        intro z hz n hn1 hn2
        have hcov : ∀ m, l.s ≤ m → m < max l.e x.e →
            ∃ y ∈ List.foldl walkStep (LSpan.mk l.s (max l.e x.e) l.lab :: rest) xs,
              y.lab = l.lab ∧ y.s ≤ m ∧ m < y.e := by
          intro m hm1 hm2
          obtain ⟨y, hy, hylab, hyn⟩ := r4 (LSpan.mk l.s (max l.e x.e) l.lab)
            (Or.inl (by simp)) m hm1 hm2
          exact ⟨y, hy, hylab, hyn⟩
        rcases hz with hz | hz
        · rcases List.mem_cons.mp hz with hz | hz
          · rw [hz] at hn1 hn2 ⊢
            exact hcov n (by omega) (by omega)
          · exact r4 z (Or.inl (List.mem_cons_of_mem _ hz)) n hn1 hn2
        · rcases List.mem_cons.mp hz with hz | hz
          · rw [hz] at hn1 hn2 ⊢
            obtain ⟨y, hy, hylab, hyn⟩ := hcov n (by omega) (by omega)
            exact ⟨y, hy, by rw [hylab, hco.1], hyn⟩
          · exact r4 z (Or.inr hz) n hn1 hn2
      · -- append
        have hstep : walkStep (l :: rest) x = x :: l :: rest := by
          unfold walkStep
          rw [if_neg hnodrop]
          exact if_neg hco
        rw [hstep]
        have hres := ih (x :: l :: rest) hpw'
          (fun z hz => hwf z (List.mem_cons_of_mem x hz))
          (fun z hz => hsp z (List.mem_cons_of_mem x hz))
          (by
            rw [List.pairwise_cons]
            refine ⟨?_, hacc⟩
            intro y hy
            rcases List.mem_cons.mp hy with hy | hy
            · subst hy
              exact hlex
            · have := hlrest y hy
              omega)
          (by
            intro y hy
            rcases List.mem_cons.mp hy with hy | hy
            · subst hy
              exact hxwf
            · exact haccwf y hy)
          (by
            intro y hy
            rcases List.mem_cons.mp hy with hy | hy
            · subst hy
              exact hxsp
            · exact haccsp y hy)
          (by
            intro y hy z hz
            rcases List.mem_cons.mp hy with hy | hy
            · subst hy
              exact hxhead z hz
            · exact hsep y hy z (List.mem_cons_of_mem x hz))
        obtain ⟨r1, r2, r3, r4⟩ := hres
        refine ⟨r1, r2, r3, ?_⟩
        intro z hz n hn1 hn2
        rcases hz with hz | hz
        · exact r4 z (Or.inl (List.mem_cons_of_mem x hz)) n hn1 hn2
        · rcases List.mem_cons.mp hz with hz | hz
          · subst hz
            exact r4 z (Or.inl (by simp)) n hn1 hn2
          · exact r4 z (Or.inr hz) n hn1 hn2

theorem PhrasePos_lt (text : Text) (phrases : List Text) (n : Nat)
    (h : PhrasePos text phrases n) : n < text.length := by
  obtain ⟨p, hp, hpe, i, hpre, h1, h2⟩ := h
  have hlp := (List.isPrefixOf_iff_prefix.mp hpre).length_le
  rw [List.length_drop] at hlp
  have hl0 : 0 < p.length := List.length_pos.mpr hpe
  omega

/-- The abstract walk pipeline: a list of pairwise-disjoint nonempty phrase
intervals and token intervals, each covering only positions allowed for its
label, is labeled, sorted by (start, phrase-first) and walked; the result is
an ordered non-overlapping list of labeled spans whose positions stay inside
the allowed set, and every input position keeps a covering output span of
its own label. -/
theorem labeled_walk_master (PR TR : List Iv) (P : HLabel → Nat → Prop)
    (hPRch : List.Pairwise (fun a b : Iv => a.2 < b.1) PR)
    (hPRwf : ∀ iv ∈ PR, iv.1 < iv.2)
    (hPRsp : ∀ iv ∈ PR, ∀ n, iv.1 ≤ n → n < iv.2 → P HLabel.phrase n)
    (hTRch : List.Pairwise (fun u v : Iv => u.2 ≤ v.1) TR)
    (hTRwf : ∀ iv ∈ TR, iv.1 < iv.2)
    (hTRsp : ∀ iv ∈ TR, ∀ n, iv.1 ≤ n → n < iv.2 → P HLabel.token n)
    (hcross : ∀ a ∈ PR, ∀ b ∈ TR, ∀ n,
      ¬(a.1 ≤ n ∧ n < a.2 ∧ b.1 ≤ n ∧ n < b.2)) :
    List.Pairwise (fun a b : LSpan => a.e ≤ b.s)
      (resolveSpans (List.insertionSort spanLE
        (PR.map (fun iv => LSpan.mk iv.1 iv.2 HLabel.phrase) ++
         TR.map (fun iv => LSpan.mk iv.1 iv.2 HLabel.token)))) ∧
    (∀ y ∈ resolveSpans (List.insertionSort spanLE
        (PR.map (fun iv => LSpan.mk iv.1 iv.2 HLabel.phrase) ++
         TR.map (fun iv => LSpan.mk iv.1 iv.2 HLabel.token))),
      y.s < y.e ∧ SpanIn P y) ∧
    (∀ iv ∈ PR, ∀ n, iv.1 ≤ n → n < iv.2 →
      ∃ y ∈ resolveSpans (List.insertionSort spanLE
        (PR.map (fun iv => LSpan.mk iv.1 iv.2 HLabel.phrase) ++
         TR.map (fun iv => LSpan.mk iv.1 iv.2 HLabel.token))),
        y.lab = HLabel.phrase ∧ y.s ≤ n ∧ n < y.e) ∧
    (∀ iv ∈ TR, ∀ n, iv.1 ≤ n → n < iv.2 →
      ∃ y ∈ resolveSpans (List.insertionSort spanLE
        (PR.map (fun iv => LSpan.mk iv.1 iv.2 HLabel.phrase) ++
         TR.map (fun iv => LSpan.mk iv.1 iv.2 HLabel.token))),
        y.lab = HLabel.token ∧ y.s ≤ n ∧ n < y.e) := by
  set LB := PR.map (fun iv => LSpan.mk iv.1 iv.2 HLabel.phrase) ++
    TR.map (fun iv => LSpan.mk iv.1 iv.2 HLabel.token) with hLB
  have hLBwf : ∀ y ∈ LB, y.s < y.e := by
    intro y hy
    rw [hLB, List.mem_append] at hy
    rcases hy with hy | hy
    · obtain ⟨iv, hiv, rfl⟩ := List.mem_map.mp hy
      exact hPRwf iv hiv
    · obtain ⟨iv, hiv, rfl⟩ := List.mem_map.mp hy
      exact hTRwf iv hiv
  have hLBsp : ∀ y ∈ LB, SpanIn P y := by
    intro y hy
    rw [hLB, List.mem_append] at hy
    rcases hy with hy | hy
    · obtain ⟨iv, hiv, rfl⟩ := List.mem_map.mp hy
      exact fun n h1 h2 => hPRsp iv hiv n h1 h2
    · obtain ⟨iv, hiv, rfl⟩ := List.mem_map.mp hy
      exact fun n h1 h2 => hTRsp iv hiv n h1 h2
  have hLBdisj : List.Pairwise
      (fun a b : LSpan => a.e ≤ b.s ∨ b.e ≤ a.s) LB := by
    rw [hLB, List.pairwise_append]
    refine ⟨?_, ?_, ?_⟩
    · rw [List.pairwise_map]
      exact hPRch.imp (fun h => Or.inl (by simp only; omega))
    · rw [List.pairwise_map]
      exact hTRch.imp (fun h => Or.inl (by simp only; omega))
    · intro a ha b hb
      obtain ⟨iv, hiv, rfl⟩ := List.mem_map.mp ha
      obtain ⟨jv, hjv, rfl⟩ := List.mem_map.mp hb
      simp only
      by_contra hno
      push_neg at hno
      have h1 := hPRwf iv hiv
      have h2 := hTRwf jv hjv
      exact hcross iv hiv jv hjv (max iv.1 jv.1) (by omega)
  have hperm : List.Perm (List.insertionSort spanLE LB) LB :=
    List.perm_insertionSort spanLE LB
  have hSLwf : ∀ y ∈ List.insertionSort spanLE LB, y.s < y.e :=
    fun y h => hLBwf y (hperm.subset h)
  have hSLsp : ∀ y ∈ List.insertionSort spanLE LB, SpanIn P y :=
    fun y h => hLBsp y (hperm.subset h)
  have hSLdisj : List.Pairwise
      (fun a b : LSpan => a.e ≤ b.s ∨ b.e ≤ a.s) (List.insertionSort spanLE LB) := by
    refine (List.Perm.pairwise_iff ?_ hperm).mpr hLBdisj
    intro a b h
    omega
  have hSLle : List.Pairwise spanLE (List.insertionSort spanLE LB) :=
    List.sorted_insertionSort spanLE LB
  have hSLchain : List.Pairwise (fun a b : LSpan => a.e ≤ b.s)
      (List.insertionSort spanLE LB) := by
    have hand := hSLdisj.and hSLle
    refine hand.imp_of_mem ?_
    intro a b ha hb hab
    have hwa := hSLwf a ha
    have hwb := hSLwf b hb
    obtain ⟨hd, hl⟩ := hab
    unfold spanLE at hl
    omega
  obtain ⟨w1, w2, w3, w4⟩ := walk_inv P (List.insertionSort spanLE LB) []
    hSLchain hSLwf hSLsp (by simp) (by simp) (by simp) (by simp)
  have hres : resolveSpans (List.insertionSort spanLE LB) =
      ((List.insertionSort spanLE LB).foldl walkStep []).reverse := rfl
  refine ⟨?_, ?_, ?_, ?_⟩
  · rw [hres, List.pairwise_reverse]
    exact w1
  · intro y hy
    rw [hres, List.mem_reverse] at hy
    exact ⟨w2 y hy, w3 y hy⟩
  · intro iv hiv n h1 h2
    have hmemSL : LSpan.mk iv.1 iv.2 HLabel.phrase ∈ List.insertionSort spanLE LB := by
      rw [hperm.mem_iff, hLB, List.mem_append]
      exact Or.inl (List.mem_map.mpr ⟨iv, hiv, rfl⟩)
    obtain ⟨y, hy, hylab, hyn⟩ := w4 (LSpan.mk iv.1 iv.2 HLabel.phrase)
      (Or.inr hmemSL) n h1 h2
    exact ⟨y, by rw [hres, List.mem_reverse]; exact hy, hylab, hyn⟩
  · intro iv hiv n h1 h2
    have hmemSL : LSpan.mk iv.1 iv.2 HLabel.token ∈ List.insertionSort spanLE LB := by
      rw [hperm.mem_iff, hLB, List.mem_append]
      exact Or.inr (List.mem_map.mpr ⟨iv, hiv, rfl⟩)
    obtain ⟨y, hy, hylab, hyn⟩ := w4 (LSpan.mk iv.1 iv.2 HLabel.token)
      (Or.inr hmemSL) n h1 h2
    exact ⟨y, by rw [hres, List.mem_reverse]; exact hy, hylab, hyn⟩

theorem tokenRanges_chain (phrase_ranges : List Iv)
    (hb : ∀ b ∈ phrase_ranges, b.1 ≤ b.2) (surfQ readQ : List Text) :
    ∀ tokens : List MToken,
    List.Pairwise (fun t u : MToken => t.te ≤ u.tb) tokens →
    List.Pairwise (fun u v : Iv => u.2 ≤ v.1)
      (tokens.flatMap (fun t =>
        if tokenMatches surfQ readQ t then
          subtract_intervals (t.tb, t.te) phrase_ranges
        else [])) := by
  intro tokens
  induction tokens with
  | nil =>
    intro _
    simp
  | cons t ts ih =>
    intro h
    obtain ⟨hhead, htail⟩ := List.pairwise_cons.mp h
    rw [List.flatMap_cons, List.pairwise_append]
    refine ⟨?_, ih htail, ?_⟩
    · by_cases hm : tokenMatches surfQ readQ t
      · rw [if_pos hm]
        exact (subtract_intervals_facts (t.tb, t.te) phrase_ranges hb).2.1
      · rw [if_neg hm]
        simp
    · intro u hu v hv
      by_cases hm : tokenMatches surfQ readQ t
      case neg =>
        rw [if_neg hm] at hu
        simp at hu
      case pos =>
        rw [if_pos hm] at hu
        obtain ⟨hu1, hu2, -⟩ :=
          (subtract_intervals_facts (t.tb, t.te) phrase_ranges hb).1 u hu
        obtain ⟨u', hu', hv'⟩ := List.mem_flatMap.mp hv
        by_cases hm' : tokenMatches surfQ readQ u'
        case neg =>
          rw [if_neg hm'] at hv'
          simp at hv'
        case pos =>
          rw [if_pos hm'] at hv'
          obtain ⟨hv1, -, -⟩ :=
            (subtract_intervals_facts (u'.tb, u'.te) phrase_ranges hb).1 v hv'
          have hord := hhead u' hu'
          have hu2' : u.2 ≤ t.te := hu2
          have hv1' : u'.tb ≤ v.1 := hv1
          omega

/-- The combined soundness and completeness facts of the highlighter's span
computation: the final spans are well formed, bounded by the text, mutually
non-overlapping, cover only phrase-match or query-token positions, token
spans avoid the phrase ranges entirely, and every query-token position
outside the phrase ranges keeps a covering token span. -/
theorem highlight_master (text : Text) (phrases surfQ readQ : List Text)
    (tokens : List MToken)
    (hbound : ∀ t ∈ tokens, t.te ≤ text.length)
    (hord : List.Pairwise (fun t u : MToken => t.te ≤ u.tb) tokens) :
    (∀ y ∈ build_highlight_spans text phrases surfQ readQ tokens,
      y.s < y.e ∧ y.e ≤ text.length) ∧
    List.Pairwise (fun a b : LSpan => a.e ≤ b.s)
      (build_highlight_spans text phrases surfQ readQ tokens) ∧
    (∀ y ∈ build_highlight_spans text phrases surfQ readQ tokens,
      ∀ n, y.s ≤ n → n < y.e →
        PhrasePos text phrases n ∨ TokenPos surfQ readQ tokens n) ∧
    (∀ y ∈ build_highlight_spans text phrases surfQ readQ tokens,
      y.lab = HLabel.token → ∀ n, y.s ≤ n → n < y.e →
        ∀ iv ∈ find_phrase_ranges text phrases, ¬(iv.1 ≤ n ∧ n < iv.2)) ∧
    (∀ t ∈ tokens, tokenMatches surfQ readQ t = true →
      ∀ n, t.tb ≤ n → n < t.te →
      (∀ iv ∈ find_phrase_ranges text phrases, ¬(iv.1 ≤ n ∧ n < iv.2)) →
      ∃ y ∈ build_highlight_spans text phrases surfQ readQ tokens,
        y.lab = HLabel.token ∧ y.s ≤ n ∧ n < y.e) := by
  by_cases htext : text = []
  · have hspans : build_highlight_spans text phrases surfQ readQ tokens = [] := by
      unfold build_highlight_spans
      rw [if_pos htext]
    rw [hspans]
    refine ⟨by simp, by simp, by simp, by simp, ?_⟩
    intro t ht _ n h1 h2 _
    have hb := hbound t ht
    rw [htext] at hb
    simp at hb
    omega
  · obtain ⟨P1, P2, P3⟩ := phrase_ranges_facts text phrases
    have hbPR : ∀ b ∈ find_phrase_ranges text phrases, b.1 ≤ b.2 :=
      fun b hb => le_of_lt (P2 b hb)
    have hPRbound : ∀ iv ∈ find_phrase_ranges text phrases, iv.2 ≤ text.length := by
      intro iv hiv
      have hwf := P2 iv hiv
      have hpp := P3 iv hiv (iv.2 - 1) (by omega) (by omega)
      have := PhrasePos_lt text phrases (iv.2 - 1) hpp
      omega
    have hTRmem : ∀ iv ∈ tokens.flatMap (fun t =>
        if tokenMatches surfQ readQ t then
          subtract_intervals (t.tb, t.te) (find_phrase_ranges text phrases)
        else []),
        ∃ t ∈ tokens, tokenMatches surfQ readQ t = true ∧
          t.tb ≤ iv.1 ∧ iv.2 ≤ t.te ∧ iv.1 < iv.2 ∧
          (∀ n, iv.1 ≤ n → n < iv.2 →
            ∀ b ∈ find_phrase_ranges text phrases, ¬(b.1 ≤ n ∧ n < b.2)) := by
      intro iv hiv
      obtain ⟨t, ht, hin⟩ := List.mem_flatMap.mp hiv
      by_cases hm : tokenMatches surfQ readQ t
      · rw [if_pos hm] at hin
        obtain ⟨hb1, hb2, hb3⟩ :=
          (subtract_intervals_facts (t.tb, t.te) _ hbPR).1 iv hin
        have hav := (subtract_intervals_facts (t.tb, t.te) _ hbPR).2.2.1 iv hin
        exact ⟨t, ht, hm, hb1, hb2, hb3, hav⟩
      · rw [if_neg hm] at hin
        simp at hin
    have hTRch := tokenRanges_chain (find_phrase_ranges text phrases) hbPR
      surfQ readQ tokens hord
    have hTRwf : ∀ iv ∈ tokens.flatMap (fun t =>
        if tokenMatches surfQ readQ t then
          subtract_intervals (t.tb, t.te) (find_phrase_ranges text phrases)
        else []), iv.1 < iv.2 := by
      intro iv hiv
      obtain ⟨t, -, -, -, -, hwf, -⟩ := hTRmem iv hiv
      exact hwf
    have hPRsp : ∀ iv ∈ find_phrase_ranges text phrases,
        ∀ n, iv.1 ≤ n → n < iv.2 →
        LabelPos text phrases surfQ readQ tokens HLabel.phrase n :=
      fun iv hiv n h1 h2 => ⟨iv, hiv, h1, h2⟩
    have hTRsp : ∀ iv ∈ tokens.flatMap (fun t =>
        if tokenMatches surfQ readQ t then
          subtract_intervals (t.tb, t.te) (find_phrase_ranges text phrases)
        else []),
        ∀ n, iv.1 ≤ n → n < iv.2 →
        LabelPos text phrases surfQ readQ tokens HLabel.token n := by
      intro iv hiv n h1 h2
      obtain ⟨t, ht, hm, ha, hb, hwf, hav⟩ := hTRmem iv hiv
      exact ⟨⟨t, ht, hm, by omega, by omega⟩, fun b hbm => hav n h1 h2 b hbm⟩
    have hcross : ∀ a ∈ find_phrase_ranges text phrases,
        ∀ b ∈ tokens.flatMap (fun t =>
          if tokenMatches surfQ readQ t then
            subtract_intervals (t.tb, t.te) (find_phrase_ranges text phrases)
          else []),
        ∀ n, ¬(a.1 ≤ n ∧ n < a.2 ∧ b.1 ≤ n ∧ n < b.2) := by
      intro a ha b hb n hcon
      obtain ⟨t, -, -, -, -, -, hav⟩ := hTRmem b hb
      exact hav n hcon.2.2.1 hcon.2.2.2 a ha ⟨hcon.1, hcon.2.1⟩
    obtain ⟨m1, m2, m3, m4⟩ := labeled_walk_master
      (find_phrase_ranges text phrases)
      (tokens.flatMap (fun t =>
        if tokenMatches surfQ readQ t then
          subtract_intervals (t.tb, t.te) (find_phrase_ranges text phrases)
        else []))
      (LabelPos text phrases surfQ readQ tokens)
      P1 P2 hPRsp hTRch hTRwf hTRsp hcross
    have hspans : build_highlight_spans text phrases surfQ readQ tokens =
        resolveSpans (List.insertionSort spanLE
          ((find_phrase_ranges text phrases).map
            (fun iv => LSpan.mk iv.1 iv.2 HLabel.phrase) ++
           (tokens.flatMap (fun t =>
             if tokenMatches surfQ readQ t then
               subtract_intervals (t.tb, t.te) (find_phrase_ranges text phrases)
             else [])).map (fun iv => LSpan.mk iv.1 iv.2 HLabel.token))) := by
      unfold build_highlight_spans
      rw [if_neg htext]
    rw [hspans]
    refine ⟨?_, m1, ?_, ?_, ?_⟩
    · intro y hy
      obtain ⟨hwfy, hsp⟩ := m2 y hy
      refine ⟨hwfy, ?_⟩
      have hP := hsp (y.e - 1) (by omega) (by omega)
      cases hlab : y.lab with
      | phrase =>
        rw [hlab] at hP
        obtain ⟨iv, hiv, -, hlt⟩ := hP
        have := hPRbound iv hiv
        omega
      | token =>
        rw [hlab] at hP
        obtain ⟨⟨t, ht, -, -, hlt⟩, -⟩ := hP
        have := hbound t ht
        omega
    · intro y hy n h1 h2
      have hP := (m2 y hy).2 n h1 h2
      cases hlab : y.lab with
      | phrase =>
        rw [hlab] at hP
        obtain ⟨iv, hiv, ha, hb⟩ := hP
        exact Or.inl (P3 iv hiv n ha hb)
      | token =>
        rw [hlab] at hP
        exact Or.inr hP.1
    · intro y hy hlab n h1 h2
      have hP := (m2 y hy).2 n h1 h2
      rw [hlab] at hP
      exact hP.2
    · intro t ht hm n h1 h2 havoid
      obtain ⟨piece, hpiece, hp1, hp2⟩ :=
        (subtract_intervals_facts (t.tb, t.te) _ hbPR).2.2.2 n h1 h2
          (fun b hb hcon => havoid b hb hcon)
      have hpieceTR : piece ∈ tokens.flatMap (fun t =>
          if tokenMatches surfQ readQ t then
            subtract_intervals (t.tb, t.te) (find_phrase_ranges text phrases)
          else []) :=
        List.mem_flatMap.mpr ⟨t, ht, by rw [if_pos hm]; exact hpiece⟩
      exact m4 piece hpieceTR n hp1 hp2

/-- C3: every span the highlighter emits lies within [0, len text], no two
emitted spans overlap, and every position covered by an emitted span is a
phrase-match position or a query-token position of the text.  The tokenizer
contract is assumed: the analyzer's token offsets end within the text and
the tokens are ordered and non-overlapping. -/
theorem claim3_highlight_invariants (text : Text) (phrases surfQ readQ : List Text)
    (tokens : List MToken)
    (hbound : ∀ t ∈ tokens, t.te ≤ text.length)
    (hord : List.Pairwise (fun t u : MToken => t.te ≤ u.tb) tokens) :
    (∀ y ∈ build_highlight_spans text phrases surfQ readQ tokens,
      y.s < y.e ∧ y.e ≤ text.length) ∧
    List.Pairwise (fun a b : LSpan => a.e ≤ b.s)
      (build_highlight_spans text phrases surfQ readQ tokens) ∧
    (∀ y ∈ build_highlight_spans text phrases surfQ readQ tokens,
      ∀ n, y.s ≤ n → n < y.e →
        PhrasePos text phrases n ∨ TokenPos surfQ readQ tokens n) := by
  obtain ⟨h1, h2, h3, -, -⟩ :=
    highlight_master text phrases surfQ readQ tokens hbound hord
  exact ⟨h1, h2, h3⟩

theorem claim3_highlight_invariants_witness :
    (∀ t ∈ [(⟨['こ', 'ん'], ['コ', 'ン'], 0, 2⟩ : MToken),
        ⟨['に', 'ち', 'は'], ['ニ', 'チ', 'ハ'], 2, 5⟩],
      t.te ≤ (['こ', 'ん', 'に', 'ち', 'は'] : Text).length) ∧
    List.Pairwise (fun t u : MToken => t.te ≤ u.tb)
      [(⟨['こ', 'ん'], ['コ', 'ン'], 0, 2⟩ : MToken),
        ⟨['に', 'ち', 'は'], ['ニ', 'チ', 'ハ'], 2, 5⟩] ∧
    ((∀ y ∈ build_highlight_spans ['こ', 'ん', 'に', 'ち', 'は'] [['ん', 'に']]
        [['こ', 'ん']] []
        [⟨['こ', 'ん'], ['コ', 'ン'], 0, 2⟩, ⟨['に', 'ち', 'は'], ['ニ', 'チ', 'ハ'], 2, 5⟩],
      y.s < y.e ∧ y.e ≤ (['こ', 'ん', 'に', 'ち', 'は'] : Text).length) ∧
    List.Pairwise (fun a b : LSpan => a.e ≤ b.s)
      (build_highlight_spans ['こ', 'ん', 'に', 'ち', 'は'] [['ん', 'に']]
        [['こ', 'ん']] []
        [⟨['こ', 'ん'], ['コ', 'ン'], 0, 2⟩, ⟨['に', 'ち', 'は'], ['ニ', 'チ', 'ハ'], 2, 5⟩]) ∧
    (∀ y ∈ build_highlight_spans ['こ', 'ん', 'に', 'ち', 'は'] [['ん', 'に']]
        [['こ', 'ん']] []
        [⟨['こ', 'ん'], ['コ', 'ン'], 0, 2⟩, ⟨['に', 'ち', 'は'], ['ニ', 'チ', 'ハ'], 2, 5⟩],
      ∀ n, y.s ≤ n → n < y.e →
        PhrasePos ['こ', 'ん', 'に', 'ち', 'は'] [['ん', 'に']] n ∨
        TokenPos [['こ', 'ん']] []
          [⟨['こ', 'ん'], ['コ', 'ン'], 0, 2⟩, ⟨['に', 'ち', 'は'], ['ニ', 'チ', 'ハ'], 2, 5⟩] n)) :=
  ⟨by decide, by decide,
    claim3_highlight_invariants ['こ', 'ん', 'に', 'ち', 'は'] [['ん', 'に']]
      [['こ', 'ん']] []
      [⟨['こ', 'ん'], ['コ', 'ン'], 0, 2⟩, ⟨['に', 'ち', 'は'], ['ニ', 'チ', 'ハ'], 2, 5⟩]
      (by decide) (by decide)⟩

/-- C4: a token span that lies fully inside a phrase range never appears in
the output as a token-labeled span (token-labeled output covers no position
of any phrase range at all), while any position of a matching token not
covered by a phrase range is still covered by an emitted token span.  The
tokenizer contract is assumed as in C3. -/
theorem claim4_phrase_precedence (text : Text) (phrases surfQ readQ : List Text)
    (tokens : List MToken)
    (hbound : ∀ t ∈ tokens, t.te ≤ text.length)
    (hord : List.Pairwise (fun t u : MToken => t.te ≤ u.tb) tokens) :
    (∀ y ∈ build_highlight_spans text phrases surfQ readQ tokens,
      y.lab = HLabel.token → ∀ n, y.s ≤ n → n < y.e →
        ∀ iv ∈ find_phrase_ranges text phrases, ¬(iv.1 ≤ n ∧ n < iv.2)) ∧
    (∀ t ∈ tokens, tokenMatches surfQ readQ t = true →
      ∀ n, t.tb ≤ n → n < t.te →
      (∀ iv ∈ find_phrase_ranges text phrases, ¬(iv.1 ≤ n ∧ n < iv.2)) →
      ∃ y ∈ build_highlight_spans text phrases surfQ readQ tokens,
        y.lab = HLabel.token ∧ y.s ≤ n ∧ n < y.e) := by
  obtain ⟨-, -, -, h4, h5⟩ :=
    highlight_master text phrases surfQ readQ tokens hbound hord
  exact ⟨h4, h5⟩

theorem claim4_phrase_precedence_witness :
    (∀ t ∈ [(⟨['食', 'べ', 'る'], ['タ', 'ベ', 'ル'], 0, 3⟩ : MToken)],
      t.te ≤ (['食', 'べ', 'る'] : Text).length) ∧
    List.Pairwise (fun t u : MToken => t.te ≤ u.tb)
      [(⟨['食', 'べ', 'る'], ['タ', 'ベ', 'ル'], 0, 3⟩ : MToken)] ∧
    ((∀ y ∈ build_highlight_spans ['食', 'べ', 'る'] [] [['食', 'べ', 'る']] []
        [⟨['食', 'べ', 'る'], ['タ', 'ベ', 'ル'], 0, 3⟩],
      y.lab = HLabel.token → ∀ n, y.s ≤ n → n < y.e →
        ∀ iv ∈ find_phrase_ranges ['食', 'べ', 'る'] [], ¬(iv.1 ≤ n ∧ n < iv.2)) ∧
    (∀ t ∈ [(⟨['食', 'べ', 'る'], ['タ', 'ベ', 'ル'], 0, 3⟩ : MToken)],
      tokenMatches [['食', 'べ', 'る']] [] t = true →
      ∀ n, t.tb ≤ n → n < t.te →
      (∀ iv ∈ find_phrase_ranges ['食', 'べ', 'る'] [], ¬(iv.1 ≤ n ∧ n < iv.2)) →
      ∃ y ∈ build_highlight_spans ['食', 'べ', 'る'] [] [['食', 'べ', 'る']] []
          [⟨['食', 'べ', 'る'], ['タ', 'ベ', 'ル'], 0, 3⟩],
        y.lab = HLabel.token ∧ y.s ≤ n ∧ n < y.e)) :=
  ⟨by decide, by decide,
    claim4_phrase_precedence ['食', 'べ', 'る'] [] [['食', 'べ', 'る']] []
      [⟨['食', 'べ', 'る'], ['タ', 'ベ', 'ル'], 0, 3⟩] (by decide) (by decide)⟩

end JPFinder
